import Mathlib

/-!
Verification of the coding-challenge-utils pathfinding library.

The development shallowly embeds the two source modules:

* `graph.rs`: a vertex capability contract (`GraphI`), path reconstruction
  (`reconstruct_path`), breadth-first all-paths search (`bfs_search_all`),
  A* shortest-path search (`astar_search`) and memoized path counting
  (`count_paths`).  The Rust functions contain unbounded `while` loops and
  unbounded recursion, so loops are embedded with an explicit fuel
  parameter; exhausting the fuel is reported as a separate outcome so that
  theorems can quantify over sufficient fuel.  The `HashMap`/`HashSet`
  containers are embedded as association lists with replace-on-insert
  semantics, and the `BinaryHeap` of `ScoredVertex` values (whose `Ord`
  instance inverts the score comparison) is embedded as a list from which
  `popMin` removes the first entry of minimal score.  The unguarded
  `g_score[&current.vertex]` indexing is embedded as an `Option` lookup
  whose failure is surfaced as the `panicked` outcome.

* `coord.rs`: the `Cartesian` coordinate type with `i32` components.
  Machine arithmetic is embedded over `Int` with explicit two's complement
  wrapping (`i32wrap`, release-mode overflow semantics) and the `as usize`
  cast as reduction modulo `2 ^ 64`.  `FromStr` is embedded over
  `List Char`, with the out-of-bounds `coords[1]` indexing surfaced as a
  distinguished panic outcome.
-/

namespace CCU

/-! ## Association-list maps (embedding of `HashMap`) and list sets (`HashSet`) -/

/-- Lookup in an association list: the value of the first pair whose key
matches. Embeds `HashMap::get`. -/
def mlookup {α β : Type} [DecidableEq α] : List (α × β) → α → Option β
  | [], _ => none
  | (k', v') :: rest, k => if k' = k then some v' else mlookup rest k

/-- Insert into an association list, replacing the first binding of the key
if present.  Embeds `HashMap::insert`. -/
def minsert {α β : Type} [DecidableEq α] : List (α × β) → α → β → List (α × β)
  | [], k, v => [(k, v)]
  | (k', v') :: rest, k, v =>
    if k' = k then (k, v) :: rest else (k', v') :: minsert rest k v

/-- Keys of an association list. -/
def mkeys {α β : Type} (m : List (α × β)) : List α := m.map Prod.fst

/-- Insert into a list used as a set (no duplicates).  Embeds
`HashSet::insert`. -/
def insertSet {α : Type} [DecidableEq α] (x : α) (l : List α) : List α :=
  if x ∈ l then l else x :: l

/-! ## The vertex capability contract (embedding of `trait Vertex`) -/

/-- Capability contract of `trait Vertex`: lazily generated neighbors and a
distance estimate.  `distance` returns `usize`, embedded as `Nat`. -/
structure GraphI (V : Type) where
  neighbors : V → List V
  distance : V → V → Nat

/-- Value of `usize::MAX` on the 64-bit target. -/
def usizeMAX : Nat := 2 ^ 64 - 1

/-! ## Path reconstruction (embedding of `reconstruct_path`) -/

/-- Tail of the reconstructed path: repeatedly follow `came_from` links,
performing at most `fuel` lookups.  The Rust `while let` loop performs one
lookup per iteration and stops at the first vertex with no binding. -/
def reconstructAux {V : Type} [DecidableEq V] (came_from : List (V × V)) :
    Nat → V → List V
  | 0, _ => []
  | fuel + 1, v =>
    match mlookup came_from v with
    | none => []
    | some prev => prev :: reconstructAux came_from fuel prev

/-- Embedding of `reconstruct_path`: the path starts at `goal` and walks
backward through recorded predecessors.  A chain of successful lookups
visits pairwise distinct keys whenever it terminates at all, so
`came_from.length` lookups always suffice to reproduce the Rust loop on
every terminating input. -/
def reconstruct_path {V : Type} [DecidableEq V] (goal : V)
    (came_from : List (V × V)) : List V :=
  goal :: reconstructAux came_from came_from.length goal

/-! ## Breadth-first all-paths search (embedding of `bfs_search_all`) -/

/-- State of the `bfs_search_all` loop: FIFO frontier, predecessor map and
accumulated result paths. -/
structure BfsState (V : Type) where
  queue : List V
  prev : List (V × V)
  result : List (List V)
deriving DecidableEq, Repr

/-- Outcome of running the BFS loop on bounded fuel. -/
inductive BfsOut (V : Type) where
  | fuelOut (s : BfsState V)
  | done (r : List (List V))
deriving DecidableEq, Repr

/-- Embedding of the `while queue.len() > 0` loop of `bfs_search_all`.  A
popped vertex at distance 0 records one reconstructed path; any other
popped vertex records itself as predecessor of each neighbor (overwriting)
and appends the neighbors to the frontier tail. -/
def bfsLoop {V : Type} [DecidableEq V] (G : GraphI V) (goal : V) :
    Nat → BfsState V → BfsOut V
  | fuel, s =>
    match s.queue with
    | [] => .done s.result
    | cur :: rest =>
      match fuel with
      | 0 => .fuelOut s
      | fuel + 1 =>
        if G.distance cur goal = 0 then
          bfsLoop G goal fuel
            { s with queue := rest,
                     result := s.result ++ [reconstruct_path cur s.prev] }
        else
          bfsLoop G goal fuel
            { s with queue := rest ++ G.neighbors cur,
                     prev := (G.neighbors cur).foldl
                       (fun m n => minsert m n cur) s.prev }

/-- Embedding of `bfs_search_all`: run the loop from a frontier seeded with
`start`, an empty predecessor map and no results. -/
def bfs_search_all {V : Type} [DecidableEq V] (G : GraphI V) (fuel : Nat)
    (start goal : V) : BfsOut V :=
  bfsLoop G goal fuel { queue := [start], prev := [], result := [] }

/-! ## A* search (embedding of `astar_search`) -/

/-- State of the `astar_search` loop.  `openList` embeds the
`BinaryHeap<ScoredVertex<T>>` frontier (score paired with vertex),
`closed` the `HashSet`, and the three maps the corresponding `HashMap`s. -/
structure AState (V : Type) where
  openList : List (Nat × V)
  closed : List V
  came_from : List (V × V)
  g_score : List (V × Nat)
  f_score : List (V × Nat)
deriving DecidableEq, Repr

/-- Outcome of running the A* loop on bounded fuel.  `panicked` is the
embedding of an out-of-bounds `g_score[&current.vertex]` index. -/
inductive AOut (V : Type) where
  | fuelOut (s : AState V)
  | panicked
  | noPath
  | found (p : List V)
deriving DecidableEq, Repr

/-- Pop from the embedded frontier: remove the first entry of minimal
score.  The `Ord` instance of `ScoredVertex` inverts the score comparison,
so the max-heap `BinaryHeap::pop` yields an entry of minimal score; which
of several tied entries is returned is unspecified in the source, and this
embedding fixes the first listed one. -/
def popMin {V : Type} : List (Nat × V) → Option ((Nat × V) × List (Nat × V))
  | [] => none
  | e :: rest =>
    match popMin rest with
    | none => some (e, [])
    | some (e', rest') =>
      if e.1 ≤ e'.1 then some (e, rest) else some (e', e :: rest')

/-- Body of the `for neighbor in ...` loop of `astar_search` for one
neighbor `n`: read `g_score[&current.vertex]` (panic -> `none` if absent),
push the neighbor at its tentative f-score, perform
`entry(neighbor).or_insert(usize::MAX)` and, if the tentative g-score
strictly improves, update `g_score`, `f_score` and `came_from`. -/
def relaxNeighbor {V : Type} [DecidableEq V] (G : GraphI V) (goal cur : V)
    (s : AState V) (n : V) : Option (AState V) :=
  match mlookup s.g_score cur with
  | none => none
  | some gcur =>
    let tentative_gscore := gcur + 1
    let tentative_fscore := tentative_gscore + G.distance n goal
    let s1 : AState V := { s with openList := s.openList ++ [(tentative_fscore, n)] }
    let gOld := (mlookup s1.g_score n).getD usizeMAX
    let g1 := if n ∈ mkeys s1.g_score then s1.g_score else minsert s1.g_score n usizeMAX
    if tentative_gscore < gOld then
      some { s1 with g_score := minsert g1 n tentative_gscore,
                     f_score := minsert s1.f_score n tentative_fscore,
                     came_from := minsert s1.came_from n cur }
    else
      some { s1 with g_score := g1 }

/-- One expansion of a popped vertex `cur` (frontier remainder `rest`):
insert `cur` into the closed set, then run `relaxNeighbor` over the
neighbors of `cur` that are not in the (updated) closed set. -/
def astarStep {V : Type} [DecidableEq V] (G : GraphI V) (goal cur : V)
    (rest : List (Nat × V)) (s : AState V) : Option (AState V) :=
  let closed' := insertSet cur s.closed
  ((G.neighbors cur).filter (fun n => decide (n ∉ closed'))).foldlM
    (relaxNeighbor G goal cur)
    { s with openList := rest, closed := closed' }

/-- The neighbor list actually traversed by one expansion of `cur`: the
neighbors of `cur` not in the updated closed set. -/
def stepNs {V : Type} [DecidableEq V] (G : GraphI V) (cur : V)
    (closed : List V) : List V :=
  (G.neighbors cur).filter (fun n => decide (n ∉ insertSet cur closed))

/-- Embedding of the `while !open.is_empty()` loop of `astar_search`. -/
def astarLoop {V : Type} [DecidableEq V] (G : GraphI V) (goal : V) :
    Nat → AState V → AOut V
  | 0, s => .fuelOut s
  | fuel + 1, s =>
    match popMin s.openList with
    | none => .noPath
    | some ((_, cur), rest) =>
      if G.distance cur goal = 0 then
        .found (reconstruct_path cur s.came_from)
      else
        match astarStep G goal cur rest s with
        | none => .panicked
        | some s' => astarLoop G goal fuel s'

/-- Initial A* state: `start` pushed at score `usize::MAX`, `g_score`
seeded with 0 and `f_score` with `usize::MAX` for `start`. -/
def astarInit {V : Type} [DecidableEq V] (start : V) : AState V :=
  { openList := [(usizeMAX, start)], closed := [], came_from := [],
    g_score := minsert [] start 0, f_score := minsert [] start usizeMAX }

/-- Embedding of `astar_search` on the given fuel. -/
def astar_search {V : Type} [DecidableEq V] (G : GraphI V) (fuel : Nat)
    (start goal : V) : AOut V :=
  astarLoop G goal fuel (astarInit start)

/-! ## Memoized path counting (embedding of `count_paths`) -/

mutual

/-- Embedding of `count_paths_internal`: memo table lookup, then either the
leaf base case 1 or the sum of the counts of the neighbors, finally
inserting the computed count into the memo table.  `none` means the fuel
was exhausted (the Rust recursion is unbounded). -/
def count_paths_internal {V : Type} [DecidableEq V] (G : GraphI V) :
    Nat → List (V × Nat) → V → Option (Nat × List (V × Nat))
  | 0, _, _ => none
  | fuel + 1, nodes, node =>
    match mlookup nodes node with
    | some c => some (c, nodes)
    | none =>
      let res :=
        if (G.neighbors node).length > 0 then
          countFold G fuel nodes 0 (G.neighbors node)
        else
          some (1, nodes)
      match res with
      | none => none
      | some (paths, m) => some (paths, minsert m node paths)
termination_by fuel _ _ => (fuel, 0)

/-- The `for n in neighbors` accumulation loop of `count_paths_internal`,
threading the memo table left to right.  The `paths += ...` accumulation
is on `usize` and wraps modulo `2 ^ 64` (release-mode semantics). -/
def countFold {V : Type} [DecidableEq V] (G : GraphI V) :
    Nat → List (V × Nat) → Nat → List V → Option (Nat × List (V × Nat))
  | _, nodes, acc, [] => some (acc, nodes)
  | fuel, nodes, acc, n :: ns =>
    match count_paths_internal G fuel nodes n with
    | none => none
    | some (c, m) => countFold G fuel m ((acc + c) % 2 ^ 64) ns
termination_by fuel _ _ ns => (fuel, ns.length + 1)

end

/-- Embedding of `count_paths`: run `count_paths_internal` on a fresh memo
table and return the count. -/
def count_paths {V : Type} [DecidableEq V] (G : GraphI V) (fuel : Nat)
    (node : V) : Option Nat :=
  match count_paths_internal G fuel [] node with
  | none => none
  | some (c, _) => some c

/-! ## The 2D coordinate collaborator (embedding of `coord.rs`) -/

/-- Embedding of `struct Cartesian` with `i32` components carried as
unbounded integers; arithmetic on them is wrapped explicitly. -/
structure Cartesian where
  x : Int
  y : Int
deriving DecidableEq, Repr

/-- Smallest `i32` value. -/
def i32min : Int := -(2 ^ 31)

/-- Two's complement wrap of an integer into the `i32` range
(release-mode overflow semantics of the Rust arithmetic operators). -/
def i32wrap (z : Int) : Int := (z + 2 ^ 31) % 2 ^ 32 - 2 ^ 31

/-- Wrapping `i32::abs`: `i32::MIN.abs()` wraps back to `i32::MIN`. -/
def i32abs (z : Int) : Int := if z = i32min then i32min else (z.natAbs : Int)

/-- The `as usize` cast from `i32` (sign extension, reinterpreted). -/
def usizeOfI32 (z : Int) : Nat := (z % 2 ^ 64).toNat

/-- Embedding of `Cartesian::new`. -/
def Cartesian.new (x y : Int) : Cartesian := ⟨x, y⟩

/-- Embedding of `Cartesian::neigh4` (west, north, east, south). -/
def Cartesian.neigh4 (c : Cartesian) : List Cartesian :=
  [Cartesian.new (i32wrap (c.x - 1)) c.y,
   Cartesian.new c.x (i32wrap (c.y + 1)),
   Cartesian.new (i32wrap (c.x + 1)) c.y,
   Cartesian.new c.x (i32wrap (c.y - 1))]

/-- Embedding of `Cartesian::manhattan_distance`: wrapping `i32`
subtraction, wrapping `abs`, `as usize` casts, and a final `usize`
addition (also wrapping). -/
def Cartesian.manhattan_distance (c other : Cartesian) : Nat :=
  let x_dist := usizeOfI32 (i32abs (i32wrap (c.x - other.x)))
  let y_dist := usizeOfI32 (i32abs (i32wrap (c.y - other.y)))
  (x_dist + y_dist) % 2 ^ 64

/-! ### Textual parsing (embedding of `impl FromStr for Cartesian`) -/

/-- Predicate of the `trim_matches` closure: parenthesis characters. -/
def isParenChar (c : Char) : Bool := c = '(' || c = ')'

/-- Embedding of `str::trim_matches`: strip all leading and trailing
characters satisfying the predicate. -/
def trimMatchesBy (p : Char → Bool) (s : List Char) : List Char :=
  ((s.dropWhile p).reverse.dropWhile p).reverse

/-- Embedding of `char::is_whitespace`: the Unicode `White_Space`
property, the exact character set stripped by `str::trim`. -/
def isRustWhitespace (c : Char) : Bool :=
  c = '\t' || c = '\n' || c = '\u000B' || c = '\u000C' || c = '\r' || c = ' ' ||
  c = '\u0085' || c = '\u00A0' || c = '\u1680' ||
  c = '\u2000' || c = '\u2001' || c = '\u2002' || c = '\u2003' || c = '\u2004' ||
  c = '\u2005' || c = '\u2006' || c = '\u2007' || c = '\u2008' || c = '\u2009' ||
  c = '\u200A' || c = '\u2028' || c = '\u2029' || c = '\u202F' || c = '\u205F' ||
  c = '\u3000'

/-- Embedding of `str::trim` (strip Unicode whitespace from both ends). -/
def trimWs (s : List Char) : List Char := trimMatchesBy isRustWhitespace s

/-- Embedding of `str::split(',')`: the comma-separated pieces, in order;
an input without separators yields a single piece (possibly empty). -/
def splitOnComma : List Char → List (List Char)
  | [] => [[]]
  | c :: rest =>
    if c = ',' then [] :: splitOnComma rest
    else
      match splitOnComma rest with
      | [] => [[c]]
      | p :: ps => (c :: p) :: ps

/-- Numeric value of a decimal digit character. -/
def digitVal (c : Char) : Nat := c.toNat - '0'.toNat

/-- Parse an unsigned decimal digit string (at least one digit, digits
only). -/
def parseNatDigits (s : List Char) : Option Nat :=
  if s = [] then none
  else if s.all Char.isDigit then
    some (s.foldl (fun acc c => acc * 10 + digitVal c) 0)
  else none

/-- Embedding of `str::parse::<i32>`: optional sign, one or more digits,
value in the `i32` range; every failure (empty, invalid digit, overflow)
is the single `ParseIntError` outcome, embedded as `none`. -/
def parseI32 (s : List Char) : Option Int :=
  match s with
  | '-' :: rest =>
    (parseNatDigits rest).bind fun n =>
      if (n : Int) ≤ 2 ^ 31 then some (-(n : Int)) else none
  | '+' :: rest =>
    (parseNatDigits rest).bind fun n =>
      if (n : Int) ≤ 2 ^ 31 - 1 then some (n : Int) else none
  | _ =>
    (parseNatDigits s).bind fun n =>
      if (n : Int) ≤ 2 ^ 31 - 1 then some (n : Int) else none

/-- Outcome of `Cartesian::from_str`: a parsed coordinate, a
`ParseIntError`, or the panic of the unguarded `coords[1]` index. -/
inductive ParseOutcome where
  | panicOOB
  | numErr
  | ok (c : Cartesian)
deriving DecidableEq, Repr

/-- The `coords` vector computed by `Cartesian::from_str`: trim
parentheses from both ends, split on commas, trim whitespace from each
piece. -/
def coordPieces (s : List Char) : List (List Char) :=
  (splitOnComma (trimMatchesBy isParenChar s)).map trimWs

/-- Embedding of `Cartesian::from_str`: trim parentheses, split on commas,
trim each piece, then parse `coords[0]` (early error return) before the
unguarded `coords[1]` index. -/
def from_str (s : List Char) : ParseOutcome :=
  match coordPieces s with
  | [] => .panicOOB
  | c0 :: rest =>
    match parseI32 c0 with
    | none => .numErr
    | some xv =>
      match rest with
      | [] => .panicOOB
      | c1 :: _ =>
        match parseI32 c1 with
        | none => .numErr
        | some yv => .ok ⟨xv, yv⟩

/-- Embedding of `impl Add for Cartesian` (componentwise, wrapping). -/
def Cartesian.add (a b : Cartesian) : Cartesian :=
  ⟨i32wrap (a.x + b.x), i32wrap (a.y + b.y)⟩

/-! ## The obstacle-free grid instance of the capability contract -/

/-- Neighbors of a point of the idealized obstacle-free grid: the four
axis-adjacent cells, in the order of `Cartesian::neigh4`. -/
def gridNeigh4 (v : Int × Int) : List (Int × Int) :=
  [(v.1 - 1, v.2), (v.1, v.2 + 1), (v.1 + 1, v.2), (v.1, v.2 - 1)]

/-- Manhattan distance on the idealized obstacle-free grid. -/
def gdist (a b : Int × Int) : Nat := (a.1 - b.1).natAbs + (a.2 - b.2).natAbs

/-- The obstacle-free grid as an instance of the vertex capability
contract: Manhattan distance as `distance`, 4-adjacency as `neighbors`. -/
def gridG : GraphI (Int × Int) := ⟨gridNeigh4, gdist⟩

/-! ## Reference definitions used to state the claims

The definitions in this block are not embeddings of the source; they are
spec-side reference objects (reference recursion, expansion trees, the
monotone grid path) that claims are compared against, plus concrete
example graphs used by counterexamples and witnesses. -/

mutual

/-- Reference recursion for path counting, from the spec: a node with no
neighbors counts 1, otherwise the sum of the counts of its neighbors.  No
memo table. -/
def countRef {V : Type} [DecidableEq V] (G : GraphI V) : Nat → V → Option Nat
  | 0, _ => none
  | fuel + 1, v =>
    if G.neighbors v = [] then some 1
    else countRefFold G fuel (G.neighbors v)
termination_by fuel _ => (fuel, 0)

/-- Sum of the reference counts over a list of nodes. -/
def countRefFold {V : Type} [DecidableEq V] (G : GraphI V) :
    Nat → List V → Option Nat
  | _, [] => some 0
  | fuel, n :: ns =>
    match countRef G fuel n with
    | none => none
    | some c =>
      match countRefFold G fuel ns with
      | none => none
      | some s => some (c + s)
termination_by fuel ns => (fuel, ns.length + 1)

end

/-- Rose tree of the lazy neighbor expansion of a vertex. -/
inductive RTree (V : Type) where
  | node (v : V) (ts : List (RTree V))

mutual

/-- Expansion tree of a vertex to the given fuel depth; `none` if the
structure is deeper than the fuel (in particular on any cycle). -/
def buildTree {V : Type} [DecidableEq V] (G : GraphI V) :
    Nat → V → Option (RTree V)
  | 0, _ => none
  | fuel + 1, v =>
    match buildForest G fuel (G.neighbors v) with
    | none => none
    | some ts => some (.node v ts)
termination_by fuel _ => (fuel, 0)

/-- Expansion trees of a list of vertices. -/
def buildForest {V : Type} [DecidableEq V] (G : GraphI V) :
    Nat → List V → Option (List (RTree V))
  | _, [] => some []
  | fuel, n :: ns =>
    match buildTree G fuel n with
    | none => none
    | some t =>
      match buildForest G fuel ns with
      | none => none
      | some ts => some (t :: ts)
termination_by fuel ns => (fuel, ns.length + 1)

end

mutual

/-- Leaf vertices of an expansion tree, with multiplicity, left to right. -/
def RTleaves {V : Type} : RTree V → List V
  | .node v ts => if ts.isEmpty then [v] else RTleavesForest ts

/-- Leaf vertices of a forest. -/
def RTleavesForest {V : Type} : List (RTree V) → List V
  | [] => []
  | t :: ts => RTleaves t ++ RTleavesForest ts

end

mutual

/-- All vertices of an expansion tree (the vertices reachable from the
root, with multiplicity). -/
def RTvertices {V : Type} : RTree V → List V
  | .node v ts => v :: RTverticesForest ts

/-- All vertices of a forest. -/
def RTverticesForest {V : Type} : List (RTree V) → List V
  | [] => []
  | t :: ts => RTvertices t ++ RTverticesForest ts

end

/-- Number of distinct leaf vertices reachable from the root of an
expansion tree, as described by the spec: vertices with no neighbors,
counted once each. -/
def reachableLeafCount {V : Type} [DecidableEq V] (G : GraphI V)
    (t : RTree V) : Nat :=
  (((RTvertices t).filter (fun u => G.neighbors u = [])).dedup).length

/-- One iteration of the BFS loop as the spec describes it: a popped
vertex at distance 0 to the goal records one reconstructed path and is not
expanded; any other popped vertex is recorded as the predecessor of each
of its neighbors (overwriting) and the neighbors join the frontier
tail. -/
def bfsStepSpec {V : Type} [DecidableEq V] (G : GraphI V) (goal cur : V)
    (rest : List V) (s : BfsState V) : BfsState V :=
  if G.distance cur goal = 0 then
    { s with queue := rest,
             result := s.result ++ [reconstruct_path cur s.prev] }
  else
    { s with queue := rest ++ G.neighbors cur,
             prev := (G.neighbors cur).foldl (fun m n => minsert m n cur) s.prev }

/-- The expansion from `v` is goal-free and finite within depth `N`: the
distance to `goal` is nonzero everywhere, depth-0 vertices are leaves, and
deeper vertices recurse on their neighbors. -/
def safeTo {V : Type} (G : GraphI V) (goal : V) : Nat → V → Prop
  | 0, v => G.distance v goal ≠ 0 ∧ G.neighbors v = []
  | n + 1, v => G.distance v goal ≠ 0 ∧ ∀ x ∈ G.neighbors v, safeTo G goal n x

/-- Size of the depth-`N` expansion of a vertex (used as a termination
measure for the BFS loop). -/
def sizeB {V : Type} (G : GraphI V) : Nat → V → Nat
  | 0, _ => 1
  | n + 1, v => 1 + ((G.neighbors v).map (sizeB G n)).sum

/-- Vertices of the depth-`N` expansion of a vertex. -/
def reachList {V : Type} (G : GraphI V) : Nat → V → List V
  | 0, v => [v]
  | n + 1, v => v :: (G.neighbors v).flatMap (reachList G n)

/-- Number of open entries whose vertex is already closed (stale frontier
entries), used in the A* termination measure. -/
def staleCount {V : Type} [DecidableEq V] (s : AState V) : Nat :=
  (s.openList.filter (fun e => decide (e.2 ∈ s.closed))).length

/-- The monotone staircase from `start` to `goal` on the grid: first walk
the x-difference, then the y-difference.  `gridPath start goal j` is the
point after `j` unit steps. -/
def gridPath (start goal : Int × Int) (j : Nat) : Int × Int :=
  let adx := (goal.1 - start.1).natAbs
  if j ≤ adx then (start.1 + (goal.1 - start.1).sign * (j : Int), start.2)
  else (goal.1, start.2 + (goal.2 - start.2).sign * ((j : Int) - (adx : Int)))

/-- The lattice rectangle spanned by `start` and `goal`: exactly the grid
points through which some monotone shortest path passes. -/
def corridor (start goal : Int × Int) : List (Int × Int) :=
  (List.range ((goal.1 - start.1).natAbs + 1)).flatMap fun i =>
    (List.range ((goal.2 - start.2).natAbs + 1)).map fun j =>
      (min start.1 goal.1 + Int.ofNat i, min start.2 goal.2 + Int.ofNat j)

/-- Iterated predecessor lookup: the vertex `n` links above `v`, or `none`
if the chain stops earlier. -/
def iterPred {V : Type} [DecidableEq V] (cf : List (V × V)) :
    Nat → V → Option V
  | 0, v => some v
  | n + 1, v =>
    match mlookup cf v with
    | none => none
    | some u => iterPred cf n u

/-- The predecessor chain from `v` reaches a vertex with no binding within
at most `fuel - 1` successful lookups. -/
def chainStops {V : Type} [DecidableEq V] (cf : List (V × V)) :
    Nat → V → Bool
  | 0, _ => false
  | fuel + 1, v =>
    match mlookup cf v with
    | none => true
    | some u => chainStops cf fuel u

/-- The predecessor chain from `v` never revisits a vertex. -/
def chainAcyclic {V : Type} [DecidableEq V] (cf : List (V × V)) (v : V) : Prop :=
  ∀ i j w, i < j → iterPred cf i v = some w → iterPred cf j v ≠ some w

/-- Example graph used to exhibit the re-expansion of a closed vertex:
a diamond `0 → 1, 2`, `1 → 3`, `2 → 3`, `3 → 4`, with heuristic values
chosen so that both frontier entries of vertex 3 are popped. -/
def exN (v : Nat) : List Nat :=
  match v with
  | 0 => [1, 2]
  | 1 => [3]
  | 2 => [3]
  | 3 => [4]
  | _ => []

/-- Heuristic table of the diamond example (goal is the absent vertex 9). -/
def exH (v : Nat) (_g : Nat) : Nat :=
  match v with
  | 0 => 3
  | 1 => 1
  | 2 => 1
  | 3 => 1
  | 4 => 10
  | _ => 7

/-- The diamond example as a capability instance. -/
def exG : GraphI Nat := ⟨exN, exH⟩

/-- Diamond graph for the BFS duplicate-paths scenario: `0 → 1, 2`,
`1 → 3`, `2 → 3`; distance is discrete equality. -/
def diamondN (v : Nat) : List Nat :=
  match v with
  | 0 => [1, 2]
  | 1 => [3]
  | 2 => [3]
  | _ => []

/-- Discrete distance: 0 on the goal itself, 5 elsewhere. -/
def discreteH (v g : Nat) : Nat := if v = g then 0 else 5

/-- The BFS diamond example as a capability instance. -/
def diamondG : GraphI Nat := ⟨diamondN, discreteH⟩

/-- A single isolated vertex with no neighbors, as a capability
instance (used to witness the unreachable-goal theorems). -/
def leafG : GraphI Nat := ⟨fun _ => [], discreteH⟩

/-- Invariant of one A* expansion on the obstacle-free grid, relative to
fixed `start` and `goal`: the bookkeeping clauses that every intermediate
state of the neighbor-relaxation loop maintains.  `g_score` values bound
the true distance from below, every frontier entry is covered by its
current `g_score` plus the heuristic, closed vertices carry their exact
distance, and the `came_from` map records grid edges with strictly
decreasing `g_score` whose chains bottom out at `start`. -/
structure RelaxInv (start goal : Int × Int) (s : AState (Int × Int)) : Prop where
  g_start : mlookup s.g_score start = some 0
  g_nodup : (mkeys s.g_score).Nodup
  cf_nodup : (mkeys s.came_from).Nodup
  g_lower : ∀ w gw, (w, gw) ∈ s.g_score → gdist start w ≤ gw
  open_g : ∀ e ∈ s.openList,
    ∃ gw, mlookup s.g_score e.2 = some gw ∧ gw + gdist e.2 goal ≤ e.1
  closed_g : ∀ w ∈ s.closed, mlookup s.g_score w = some (gdist start w)
  cf_graph : ∀ w u, (w, u) ∈ s.came_from → w ∈ gridNeigh4 u
  cf_g : ∀ w u, (w, u) ∈ s.came_from →
    ∃ gw gu, mlookup s.g_score w = some gw ∧ mlookup s.g_score u = some gu ∧
      gu + 1 ≤ gw ∧ (u = start ∨ u ∈ mkeys s.came_from)
  cf_start : start ∉ mkeys s.came_from
  cf_total : ∀ w gw, (w, gw) ∈ s.g_score → w ≠ start → gw < usizeMAX →
    w ∈ mkeys s.came_from

/-- Invariant of the A* loop on the obstacle-free grid after the first
expansion: on top of `RelaxInv`, the start is closed, the goal is not,
and along the monotone staircase every closed prefix is followed either by
another closed staircase vertex or by a frontier entry whose score is
exactly the start-goal distance. -/
structure AstarGridInv (start goal : Int × Int) (s : AState (Int × Int))
    extends RelaxInv start goal s : Prop where
  start_closed : start ∈ s.closed
  goal_not_closed : goal ∉ s.closed
  corridor_entry : ∀ j, j < gdist start goal → gridPath start goal j ∈ s.closed →
    (gridPath start goal (j + 1) ∈ s.closed ∨
      (gdist start goal, gridPath start goal (j + 1)) ∈ s.openList)

/-- A two-leaf tree `0 → 1, 2` as a capability instance. -/
def treeN (v : Nat) : List Nat :=
  match v with
  | 0 => [1, 2]
  | _ => []

/-- The two-leaf tree as a capability instance. -/
def treeG : GraphI Nat := ⟨treeN, discreteH⟩

/-- A 65-rank doubling DAG: vertices `2 * r` and `2 * r + 1` form rank
`r`, and each rank-`r` vertex for `r < 64` points at both rank-`(r + 1)`
vertices.  It is finite and acyclic, and the root has exactly `2 ^ 64`
leaf walks, so the `usize` accumulation in `count_paths` wraps on it. -/
def bigN (v : Nat) : List Nat :=
  if v / 2 < 64 then [2 * (v / 2) + 2, 2 * (v / 2) + 3] else []

/-- The doubling DAG as a capability instance. -/
def bigG : GraphI Nat := ⟨bigN, discreteH⟩

/-! ## Lemmas about the association-list maps -/

section MapLemmas

variable {α β : Type} [DecidableEq α]

theorem mlookup_minsert_self (m : List (α × β)) (k : α) (v : β) :
    mlookup (minsert m k v) k = some v := by
  induction m with
  | nil => simp [minsert, mlookup]
  | cons p rest ih =>
    obtain ⟨k', v'⟩ := p
    by_cases h : k' = k
    · simp [minsert, h, mlookup]
    · simp [minsert, h, mlookup, ih]

theorem mlookup_minsert_ne (m : List (α × β)) (k a : α) (v : β) (h : a ≠ k) :
    mlookup (minsert m k v) a = mlookup m a := by
  have h' : k ≠ a := Ne.symm h
  induction m with
  | nil => simp [minsert, mlookup, h']
  | cons p rest ih =>
    obtain ⟨k', v'⟩ := p
    by_cases hk : k' = k
    · subst hk
      simp [minsert, mlookup, h']
    · simp only [minsert, if_neg hk, mlookup]
      by_cases ha : k' = a
      · simp [ha]
      · simp [ha, ih]

theorem mem_of_mlookup_eq_some {m : List (α × β)} {k : α} {v : β}
    (h : mlookup m k = some v) : (k, v) ∈ m := by
  induction m with
  | nil => simp [mlookup] at h
  | cons p rest ih =>
    obtain ⟨k', v'⟩ := p
    by_cases hk : k' = k
    · subst hk
      simp [mlookup] at h
      simp [h]
    · simp [mlookup, hk] at h
      exact List.mem_cons_of_mem _ (ih h)

theorem mlookup_eq_none_iff (m : List (α × β)) (k : α) :
    mlookup m k = none ↔ k ∉ mkeys m := by
  induction m with
  | nil => simp [mlookup, mkeys]
  | cons p rest ih =>
    obtain ⟨k', v'⟩ := p
    by_cases hk : k' = k
    · subst hk
      simp [mlookup, mkeys]
    · have hk' : ¬k' = k := hk
      simp [mlookup, hk', mkeys] at ih ⊢
      rw [ih]
      simp [Ne.symm hk]

theorem mlookup_isSome_iff (m : List (α × β)) (k : α) :
    (mlookup m k).isSome = true ↔ k ∈ mkeys m := by
  rcases h : mlookup m k with _ | v
  · rw [mlookup_eq_none_iff] at h
    simp [h]
  · have : (k, v) ∈ m := mem_of_mlookup_eq_some h
    have : k ∈ mkeys m := by
      simp only [mkeys, List.mem_map]
      exact ⟨(k, v), this, rfl⟩
    simp [this]

theorem mlookup_eq_some_of_mem_of_nodup {m : List (α × β)} {k : α} {v : β}
    (hnd : (mkeys m).Nodup) (h : (k, v) ∈ m) : mlookup m k = some v := by
  induction m with
  | nil => simp at h
  | cons p rest ih =>
    obtain ⟨k', v'⟩ := p
    simp only [mkeys, List.map_cons, List.nodup_cons] at hnd
    rcases List.mem_cons.mp h with h1 | h1
    · obtain ⟨hk, hv⟩ := Prod.mk.injEq .. ▸ h1
      simp [mlookup, hk.symm, hv]
    · have hk : k' ≠ k := by
        rintro rfl
        exact hnd.1 (by simpa [mkeys] using List.mem_map_of_mem Prod.fst h1)
      simp [mlookup, hk]
      exact ih hnd.2 h1

theorem mem_minsert_self (m : List (α × β)) (k : α) (v : β) :
    (k, v) ∈ minsert m k v := by
  induction m with
  | nil => simp [minsert]
  | cons p rest ih =>
    obtain ⟨k', v'⟩ := p
    by_cases hk : k' = k <;> simp [minsert, hk, ih]

theorem mem_minsert_weak {m : List (α × β)} {k a : α} {v b : β}
    (h : (a, b) ∈ minsert m k v) : (a = k ∧ b = v) ∨ (a, b) ∈ m := by
  induction m with
  | nil => simp [minsert] at h; simp [h]
  | cons p rest ih =>
    obtain ⟨k', v'⟩ := p
    by_cases hk : k' = k
    · subst hk
      simp [minsert] at h
      rcases h with h | h
      · simp [h]
      · simp [h]
    · simp [minsert, hk] at h
      rcases h with h | h
      · simp [h]
      · rcases ih h with h1 | h1
        · simp [h1]
        · simp [h1]

theorem mem_minsert_of_ne {m : List (α × β)} {k a : α} {v b : β}
    (h : (a, b) ∈ m) (hne : a ≠ k) : (a, b) ∈ minsert m k v := by
  induction m with
  | nil => simp at h
  | cons p rest ih =>
    obtain ⟨k', v'⟩ := p
    rcases List.mem_cons.mp h with h1 | h1
    · obtain ⟨hk, hv⟩ := Prod.mk.injEq .. ▸ h1
      subst hk hv
      by_cases hk : a = k
      · exact absurd hk hne
      · simp [minsert, hk]
    · by_cases hk : k' = k
      · simp only [minsert, if_pos hk]
        exact List.mem_cons_of_mem _ h1
      · simp only [minsert, if_neg hk]
        exact List.mem_cons_of_mem _ (ih h1)

theorem mem_minsert_of_nodup {m : List (α × β)} {k a : α} {v b : β}
    (hnd : (mkeys m).Nodup) (h : (a, b) ∈ minsert m k v) :
    (a = k ∧ b = v) ∨ ((a, b) ∈ m ∧ a ≠ k) := by
  by_cases hak : a = k
  · subst hak
    left
    refine ⟨rfl, ?_⟩
    induction m with
    | nil =>
      simp [minsert] at h
      exact h
    | cons p rest ih =>
      obtain ⟨k', v'⟩ := p
      simp only [mkeys, List.map_cons, List.nodup_cons] at hnd
      by_cases hk : k' = a
      · subst hk
        simp only [minsert, if_pos rfl] at h
        rcases List.mem_cons.mp h with h1 | h1
        · exact (Prod.mk.injEq .. ▸ h1).2
        · exfalso
          exact hnd.1 (by simpa [mkeys] using List.mem_map_of_mem Prod.fst h1)
      · simp only [minsert, if_neg hk] at h
        rcases List.mem_cons.mp h with h1 | h1
        · exact absurd (Prod.mk.injEq .. ▸ h1).1.symm hk
        · exact ih hnd.2 h1
  · rcases mem_minsert_weak h with ⟨h1, _⟩ | h1
    · exact absurd h1 hak
    · exact Or.inr ⟨h1, hak⟩

theorem mem_mkeys_minsert (m : List (α × β)) (k : α) (v : β) (a : α) :
    a ∈ mkeys (minsert m k v) ↔ a = k ∨ a ∈ mkeys m := by
  induction m with
  | nil => simp [minsert, mkeys]
  | cons p rest ih =>
    obtain ⟨k', v'⟩ := p
    by_cases hk : k' = k
    · subst hk
      have hif : minsert ((k', v') :: rest) k' v = (k', v) :: rest := by
        simp [minsert]
      rw [hif]
      simp only [mkeys, List.map_cons, List.mem_cons]
      tauto
    · simp only [minsert, if_neg hk, mkeys, List.map_cons, List.mem_cons] at ih ⊢
      tauto

theorem mkeys_minsert_nodup {m : List (α × β)} (k : α) (v : β)
    (h : (mkeys m).Nodup) : (mkeys (minsert m k v)).Nodup := by
  induction m with
  | nil => simp [minsert, mkeys]
  | cons p rest ih =>
    obtain ⟨k', v'⟩ := p
    simp only [mkeys, List.map_cons, List.nodup_cons] at h
    by_cases hk : k' = k
    · subst hk
      have hif : minsert ((k', v') :: rest) k' v = (k', v) :: rest := by
        simp [minsert]
      rw [hif]
      simp only [mkeys, List.map_cons, List.nodup_cons]
      exact ⟨h.1, h.2⟩
    · simp only [minsert, if_neg hk, mkeys, List.map_cons, List.nodup_cons]
      refine ⟨fun hc => ?_, ih h.2⟩
      rcases (mem_mkeys_minsert rest k v k').mp hc with h1 | h1
      · exact hk h1
      · exact h.1 h1

theorem length_minsert_of_mem {m : List (α × β)} {k : α} (v : β)
    (h : k ∈ mkeys m) : (minsert m k v).length = m.length := by
  induction m with
  | nil => simp [mkeys] at h
  | cons p rest ih =>
    obtain ⟨k', v'⟩ := p
    by_cases hk : k' = k
    · simp [minsert, hk]
    · simp only [mkeys, List.map_cons, List.mem_cons] at h
      rcases h with h | h
      · exact absurd h.symm hk
      · simp [minsert, hk, ih h]

theorem length_minsert_of_not_mem {m : List (α × β)} {k : α} (v : β)
    (h : k ∉ mkeys m) : (minsert m k v).length = m.length + 1 := by
  induction m with
  | nil => simp [minsert]
  | cons p rest ih =>
    obtain ⟨k', v'⟩ := p
    simp only [mkeys, List.map_cons, List.mem_cons] at h
    push_neg at h
    have hk : k' ≠ k := fun hh => h.1 hh.symm
    simp [minsert, hk, ih h.2]

end MapLemmas

/-! ## Lemmas about list sets and the frontier pop -/

section SetPopLemmas

variable {α V : Type} [DecidableEq α]

theorem mem_insertSet {x a : α} {l : List α} :
    a ∈ insertSet x l ↔ a = x ∨ a ∈ l := by
  by_cases h : x ∈ l
  · simp only [insertSet, if_pos h]
    constructor
    · tauto
    · rintro (rfl | h1) <;> [exact h; exact h1]
  · simp [insertSet, if_neg h]

theorem insertSet_eq_of_mem {x : α} {l : List α} (h : x ∈ l) :
    insertSet x l = l := by simp [insertSet, h]

theorem insertSet_eq_of_not_mem {x : α} {l : List α} (h : x ∉ l) :
    insertSet x l = x :: l := by simp [insertSet, h]

theorem self_mem_insertSet (x : α) (l : List α) : x ∈ insertSet x l :=
  mem_insertSet.mpr (Or.inl rfl)

theorem popMin_eq_none_iff (l : List (Nat × V)) : popMin l = none ↔ l = [] := by
  cases l with
  | nil => simp [popMin]
  | cons e rest =>
    simp only [popMin]
    rcases h : popMin rest with _ | er
    · simp
    · obtain ⟨e', r'⟩ := er
      by_cases hle : e.1 ≤ e'.1 <;> simp [hle]

theorem popMin_perm {l : List (Nat × V)} {e : Nat × V} {r : List (Nat × V)}
    (h : popMin l = some (e, r)) : l.Perm (e :: r) := by
  induction l generalizing e r with
  | nil => simp [popMin] at h
  | cons x rest ih =>
    simp only [popMin] at h
    rcases hr : popMin rest with _ | er
    · rw [hr] at h
      have : rest = [] := (popMin_eq_none_iff rest).mp hr
      subst this
      simp at h
      simp [h.1, h.2.symm]
    · obtain ⟨e', r'⟩ := er
      rw [hr] at h
      by_cases hle : x.1 ≤ e'.1
      · simp [hle] at h
        obtain ⟨rfl, rfl⟩ := h
        exact List.Perm.refl _
      · simp [hle] at h
        obtain ⟨rfl, rfl⟩ := h
        exact List.Perm.trans ((ih hr).cons x) (List.Perm.swap e' x r')

theorem popMin_mem {l : List (Nat × V)} {e : Nat × V} {r : List (Nat × V)}
    (h : popMin l = some (e, r)) : e ∈ l :=
  (popMin_perm h).symm.subset (List.mem_cons_self e r)

theorem popMin_min {l : List (Nat × V)} {e : Nat × V} {r : List (Nat × V)}
    (h : popMin l = some (e, r)) : ∀ x ∈ l, e.1 ≤ x.1 := by
  induction l generalizing e r with
  | nil => simp [popMin] at h
  | cons x rest ih =>
    simp only [popMin] at h
    rcases hr : popMin rest with _ | er
    · rw [hr] at h
      have : rest = [] := (popMin_eq_none_iff rest).mp hr
      subst this
      simp at h
      simp [h.1]
    · obtain ⟨e', r'⟩ := er
      rw [hr] at h
      by_cases hle : x.1 ≤ e'.1
      · simp [hle] at h
        obtain ⟨rfl, rfl⟩ := h
        intro y hy
        rcases List.mem_cons.mp hy with rfl | hy
        · exact le_refl _
        · exact le_trans hle (ih hr y hy)
      · simp [hle] at h
        obtain ⟨rfl, rfl⟩ := h
        intro y hy
        rcases List.mem_cons.mp hy with rfl | hy
        · exact le_of_lt (lt_of_not_le hle)
        · exact ih hr y hy

theorem popMin_mem_rest {l : List (Nat × V)} {e x : Nat × V}
    {r : List (Nat × V)} (h : popMin l = some (e, r)) (hx : x ∈ r) : x ∈ l :=
  (popMin_perm h).symm.subset (List.mem_cons_of_mem e hx)

end SetPopLemmas

/-! ## Machine-arithmetic lemmas for the coordinate type -/

theorem i32wrap_eq_self {z : Int} (h1 : -(2 ^ 31) ≤ z) (h2 : z < 2 ^ 31) :
    i32wrap z = z := by
  unfold i32wrap
  have h3 : (z + 2 ^ 31) % 2 ^ 32 = z + 2 ^ 31 :=
    Int.emod_eq_of_lt (by omega) (by omega)
  omega

theorem usizeOfI32_ofNat {n : Nat} (h : n < 2 ^ 64) : usizeOfI32 (n : Int) = n := by
  unfold usizeOfI32
  have h0 : (0 : Int) ≤ (n : Int) := Int.natCast_nonneg n
  have h1 : (n : Int) < 2 ^ 64 := by exact_mod_cast h
  have h3 : (n : Int) % 2 ^ 64 = n := Int.emod_eq_of_lt h0 h1
  omega

theorem manhattan_distance_eq_of_small {a b : Cartesian}
    (hx : (a.x - b.x).natAbs < 2 ^ 31) (hy : (a.y - b.y).natAbs < 2 ^ 31) :
    a.manhattan_distance b = (a.x - b.x).natAbs + (a.y - b.y).natAbs := by
  unfold Cartesian.manhattan_distance
  have hwx : i32wrap (a.x - b.x) = a.x - b.x := i32wrap_eq_self (by omega) (by omega)
  have hwy : i32wrap (a.y - b.y) = a.y - b.y := i32wrap_eq_self (by omega) (by omega)
  have hax : i32abs (a.x - b.x) = ((a.x - b.x).natAbs : Int) := by
    unfold i32abs i32min
    rw [if_neg (by omega)]
  have hay : i32abs (a.y - b.y) = ((a.y - b.y).natAbs : Int) := by
    unfold i32abs i32min
    rw [if_neg (by omega)]
  rw [hwx, hwy, hax, hay]
  rw [usizeOfI32_ofNat (by omega), usizeOfI32_ofNat (by omega)]
  exact Nat.mod_eq_of_lt (by omega)

/-! ## Claim C8: Manhattan distance -/

/-- C8 (counterexample): at the concrete pair `a = (2147483647, 0)`,
`b = (-1, 0)` the wrapping `i32` subtraction, wrapping `abs` and the
`as usize` cast make `manhattan_distance` return `2 ^ 64 - 2 ^ 31`, not
the mathematical `|a.x - b.x| + |a.y - b.y| = 2 ^ 31`, so the claimed
equation fails for this pair of coordinates. -/
theorem manhattan_distance_overflow :
    Cartesian.manhattan_distance (Cartesian.new 2147483647 0) (Cartesian.new (-1) 0) =
      2 ^ 64 - 2 ^ 31 ∧
    ((2147483647 : Int) - (-1 : Int)).natAbs + ((0 : Int) - (0 : Int)).natAbs = 2 ^ 31 ∧
    Cartesian.manhattan_distance (Cartesian.new 2147483647 0) (Cartesian.new (-1) 0) ≠
      ((2147483647 : Int) - (-1 : Int)).natAbs + ((0 : Int) - (0 : Int)).natAbs := by
  refine ⟨by decide, by decide, by decide⟩

/-- C8 (amended): for every pair of coordinates whose componentwise
differences have magnitude below `2 ^ 31` (no `i32` overflow),
`manhattan_distance` returns `|a.x - b.x| + |a.y - b.y|` as a non-negative
integer; in particular `manhattan_distance (1,1) (4,5) = 7`. -/
theorem manhattan_distance_correct :
    (∀ a b : Cartesian, (a.x - b.x).natAbs < 2 ^ 31 → (a.y - b.y).natAbs < 2 ^ 31 →
      a.manhattan_distance b = (a.x - b.x).natAbs + (a.y - b.y).natAbs) ∧
    Cartesian.manhattan_distance (Cartesian.new 1 1) (Cartesian.new 4 5) = 7 :=
  ⟨fun _ _ hx hy => manhattan_distance_eq_of_small hx hy, by decide⟩

/-- C8 (witness): the amended theorem applied at the concrete pair
`(1, 1)`, `(4, 5)`. -/
theorem manhattan_distance_correct_witness :
    ((Cartesian.new 1 1).x - (Cartesian.new 4 5).x).natAbs < 2 ^ 31 ∧
    ((Cartesian.new 1 1).y - (Cartesian.new 4 5).y).natAbs < 2 ^ 31 ∧
    Cartesian.manhattan_distance (Cartesian.new 1 1) (Cartesian.new 4 5) =
      ((Cartesian.new 1 1).x - (Cartesian.new 4 5).x).natAbs +
        ((Cartesian.new 1 1).y - (Cartesian.new 4 5).y).natAbs :=
  ⟨by decide, by decide,
    manhattan_distance_correct.1 (Cartesian.new 1 1) (Cartesian.new 4 5)
      (by decide) (by decide)⟩

/-! ## String lemmas for the coordinate parser -/

theorem whitespace_cases {c : Char} (h : isRustWhitespace c = true) :
    c = '\t' ∨ c = '\n' ∨ c = '\u000B' ∨ c = '\u000C' ∨ c = '\r' ∨ c = ' ' ∨
    c = '\u0085' ∨ c = '\u00A0' ∨ c = '\u1680' ∨
    c = '\u2000' ∨ c = '\u2001' ∨ c = '\u2002' ∨ c = '\u2003' ∨ c = '\u2004' ∨
    c = '\u2005' ∨ c = '\u2006' ∨ c = '\u2007' ∨ c = '\u2008' ∨ c = '\u2009' ∨
    c = '\u200A' ∨ c = '\u2028' ∨ c = '\u2029' ∨ c = '\u202F' ∨ c = '\u205F' ∨
    c = '\u3000' := by
  simp [isRustWhitespace] at h
  tauto

theorem signDigit_not_ws {c : Char} (h : c.isDigit = true ∨ c = '-' ∨ c = '+') :
    isRustWhitespace c = false := by
  by_contra hc
  rw [Bool.not_eq_false] at hc
  rcases whitespace_cases hc with rfl | rfl | rfl | rfl | rfl | rfl | rfl | rfl | rfl |
    rfl | rfl | rfl | rfl | rfl | rfl | rfl | rfl | rfl | rfl | rfl | rfl | rfl |
    rfl | rfl | rfl <;> revert h <;> decide

theorem signDigit_not_comma {c : Char}
    (h : c.isDigit = true ∨ c = '-' ∨ c = '+') : c ≠ ',' := by
  rintro rfl
  revert h
  decide

theorem signDigit_not_paren {c : Char}
    (h : c.isDigit = true ∨ c = '-' ∨ c = '+') : isParenChar c = false := by
  by_contra hc
  rw [Bool.not_eq_false] at hc
  simp [isParenChar] at hc
  rcases hc with rfl | rfl <;> revert h <;> decide

theorem dropWhile_eq_self_of_all {p : Char → Bool} {l : List Char}
    (h : ∀ c ∈ l, p c = false) : l.dropWhile p = l := by
  cases l with
  | nil => rfl
  | cons x xs =>
    rw [List.dropWhile_cons, if_neg]
    simp [h x (List.mem_cons_self x xs)]

theorem dropWhile_append_of_all {p : Char → Bool} {a l : List Char}
    (ha : ∀ c ∈ a, p c = true) : (a ++ l).dropWhile p = l.dropWhile p := by
  induction a with
  | nil => rfl
  | cons x xs ih =>
    rw [List.cons_append, List.dropWhile_cons, if_pos (ha x (List.mem_cons_self x xs))]
    exact ih fun c hc => ha c (List.mem_cons_of_mem x hc)

theorem trimMatchesBy_eq_self {p : Char → Bool} {m : List Char}
    (h : ∀ c ∈ m, p c = false) : trimMatchesBy p m = m := by
  unfold trimMatchesBy
  rw [dropWhile_eq_self_of_all h, dropWhile_eq_self_of_all (fun c hc => h c (List.mem_reverse.mp hc)),
    List.reverse_reverse]

theorem trimMatchesBy_paren_wrap {m : List Char}
    (hm : ∀ c ∈ m, isParenChar c = false) (hne : m ≠ []) :
    trimMatchesBy isParenChar ('(' :: m ++ [')']) = m := by
  unfold trimMatchesBy
  rw [List.cons_append, List.dropWhile_cons, if_pos (by decide)]
  obtain ⟨x, xs, rfl⟩ := List.exists_cons_of_ne_nil hne
  rw [List.cons_append, List.dropWhile_cons,
    if_neg (by simp [hm x (List.mem_cons_self x xs)])]
  rw [show (x :: (xs ++ [')']) : List Char).reverse = ')' :: (x :: xs).reverse by simp]
  rw [List.dropWhile_cons, if_pos (by decide)]
  rw [dropWhile_eq_self_of_all
    (fun c hc => hm c (List.mem_reverse.mp hc)), List.reverse_reverse]

theorem trimWs_pad {a s b : List Char}
    (ha : ∀ c ∈ a, isRustWhitespace c = true) (hb : ∀ c ∈ b, isRustWhitespace c = true)
    (hs : ∀ c ∈ s, isRustWhitespace c = false) (hne : s ≠ []) :
    trimWs (a ++ s ++ b) = s := by
  unfold trimWs trimMatchesBy
  rw [List.append_assoc, dropWhile_append_of_all ha]
  obtain ⟨x, xs, rfl⟩ := List.exists_cons_of_ne_nil hne
  rw [List.cons_append, List.dropWhile_cons,
    if_neg (by simp [hs x (List.mem_cons_self x xs)])]
  rw [show (x :: (xs ++ b) : List Char).reverse = b.reverse ++ (x :: xs).reverse by simp]
  rw [dropWhile_append_of_all (fun c hc => hb c (List.mem_reverse.mp hc))]
  rw [dropWhile_eq_self_of_all
    (fun c hc => hs c (List.mem_reverse.mp hc)), List.reverse_reverse]

theorem splitOnComma_ne_nil (l : List Char) : splitOnComma l ≠ [] := by
  induction l with
  | nil => simp [splitOnComma]
  | cons c rest ih =>
    by_cases hc : c = ','
    · simp [splitOnComma, hc]
    · simp only [splitOnComma, if_neg hc]
      rcases h : splitOnComma rest with _ | ⟨p, ps⟩
      · simp
      · simp

theorem splitOnComma_no_comma {l : List Char} (h : ∀ c ∈ l, c ≠ ',') :
    splitOnComma l = [l] := by
  induction l with
  | nil => rfl
  | cons c rest ih =>
    have hc : ¬ c = ',' := h c (List.mem_cons_self c rest)
    simp only [splitOnComma, if_neg hc]
    rw [ih fun x hx => h x (List.mem_cons_of_mem c hx)]

theorem splitOnComma_append {a b : List Char} (h : ∀ c ∈ a, c ≠ ',') :
    splitOnComma (a ++ ',' :: b) = a :: splitOnComma b := by
  induction a with
  | nil => simp [splitOnComma]
  | cons x xs ih =>
    have hx : ¬ x = ',' := h x (List.mem_cons_self x xs)
    have h2 := ih fun c hc => h c (List.mem_cons_of_mem x hc)
    simp only [List.cons_append, splitOnComma, if_neg hx, List.append_eq, h2]

theorem parseNatDigits_shape {s : List Char} {n : Nat}
    (h : parseNatDigits s = some n) : s ≠ [] ∧ ∀ c ∈ s, c.isDigit = true := by
  unfold parseNatDigits at h
  by_cases h1 : s = []
  · simp [h1] at h
  · by_cases h2 : s.all Char.isDigit
    · exact ⟨h1, by simpa [List.all_eq_true] using h2⟩
    · simp [h1, h2] at h

theorem parseI32_shape {s : List Char} {x : Int} (h : parseI32 s = some x) :
    s ≠ [] ∧ ∀ c ∈ s, (c.isDigit = true ∨ c = '-' ∨ c = '+') := by
  rcases s with _ | ⟨c, rest⟩
  · rw [show parseI32 ([] : List Char) = none from rfl] at h
    exact Option.noConfusion h
  · refine ⟨by simp, ?_⟩
    by_cases hc1 : c = '-'
    · subst hc1
      simp only [parseI32, Option.bind_eq_bind, Option.bind_eq_some] at h
      obtain ⟨n, hn, _⟩ := h
      intro d hd
      rcases List.mem_cons.mp hd with rfl | hd
      · exact Or.inr (Or.inl rfl)
      · exact Or.inl ((parseNatDigits_shape hn).2 d hd)
    · by_cases hc2 : c = '+'
      · subst hc2
        simp only [parseI32, Option.bind_eq_bind, Option.bind_eq_some] at h
        obtain ⟨n, hn, _⟩ := h
        intro d hd
        rcases List.mem_cons.mp hd with rfl | hd
        · exact Or.inr (Or.inr rfl)
        · exact Or.inl ((parseNatDigits_shape hn).2 d hd)
      · have heq : parseI32 (c :: rest) =
            (parseNatDigits (c :: rest)).bind fun n =>
              if (n : Int) ≤ 2 ^ 31 - 1 then some (n : Int) else none := by
          rw [parseI32.eq_def]
          split
          · simp_all
          · simp_all
          · rfl
        rw [heq] at h
        simp only [Option.bind_eq_bind, Option.bind_eq_some] at h
        obtain ⟨n, hn, _⟩ := h
        intro d hd
        exact Or.inl ((parseNatDigits_shape hn).2 d hd)

theorem ws_not_paren {c : Char} (h : isRustWhitespace c = true) :
    isParenChar c = false := by
  rcases whitespace_cases h with rfl | rfl | rfl | rfl | rfl | rfl | rfl | rfl | rfl |
    rfl | rfl | rfl | rfl | rfl | rfl | rfl | rfl | rfl | rfl | rfl | rfl | rfl |
    rfl | rfl | rfl <;> decide

theorem ws_not_comma {c : Char} (h : isRustWhitespace c = true) : c ≠ ',' := by
  rcases whitespace_cases h with rfl | rfl | rfl | rfl | rfl | rfl | rfl | rfl | rfl |
    rfl | rfl | rfl | rfl | rfl | rfl | rfl | rfl | rfl | rfl | rfl | rfl | rfl |
    rfl | rfl | rfl <;> decide

/-! ## Claim C7: coordinate parsing -/

/-- C7 (counterexample): the concrete input `"abc"` contains no comma, yet
`from_str` does not panic on it: the first component `"abc"` fails the
integer parse, and the early error return fires before the `coords[1]`
index is reached, so the result is the numeric-parse error. -/
theorem from_str_missing_comma_no_panic :
    (',' ∉ "abc".toList) ∧ from_str "abc".toList = ParseOutcome.numErr ∧
      from_str "abc".toList ≠ ParseOutcome.panicOOB :=
  ⟨by decide, by decide, by decide⟩

/-- C7 (amended): `"(3, -2)"` and `"3,-2"` both parse to `x = 3, y = -2`;
strings of the form `"(x, y)"` — optional parentheses, Unicode whitespace
(the full `White_Space` set trimmed by `str::trim`, e.g. also U+000B)
tolerated around the comma-separated integers — parse to the two integers;
if the string splits into at least two components and either of the first
two fails the integer parse, the result is the numeric-parse error; and on
a string lacking a comma (a single component), the unguarded `coords[1]`
index panics only when the single component itself parses as an integer —
otherwise the numeric-parse error is returned first. -/
theorem from_str_spec :
    from_str "(3, -2)".toList = ParseOutcome.ok (Cartesian.new 3 (-2)) ∧
    from_str "3,-2".toList = ParseOutcome.ok (Cartesian.new 3 (-2)) ∧
    (∀ ws1 ws2 ws3 ws4 s t : List Char, ∀ x y : Int,
      (∀ c ∈ ws1, isRustWhitespace c = true) → (∀ c ∈ ws2, isRustWhitespace c = true) →
      (∀ c ∈ ws3, isRustWhitespace c = true) → (∀ c ∈ ws4, isRustWhitespace c = true) →
      parseI32 s = some x → parseI32 t = some y →
      from_str ('(' :: ((ws1 ++ s ++ ws2) ++ ',' :: (ws3 ++ t ++ ws4)) ++ [')']) =
        ParseOutcome.ok (Cartesian.new x y) ∧
      from_str ((ws1 ++ s ++ ws2) ++ ',' :: (ws3 ++ t ++ ws4)) =
        ParseOutcome.ok (Cartesian.new x y)) ∧
    (∀ s : List Char, ∀ c0 c1 : List Char, ∀ cs : List (List Char),
      coordPieces s = c0 :: c1 :: cs →
      (parseI32 c0 = none ∨ parseI32 c1 = none) → from_str s = ParseOutcome.numErr) ∧
    (∀ s : List Char, ∀ c0 : List Char, coordPieces s = [c0] →
      (parseI32 c0 = none → from_str s = ParseOutcome.numErr) ∧
      (∀ x : Int, parseI32 c0 = some x → from_str s = ParseOutcome.panicOOB)) := by
  refine ⟨by decide, by decide, ?_, ?_, ?_⟩
  · intro ws1 ws2 ws3 ws4 s t x y hw1 hw2 hw3 hw4 hs ht
    obtain ⟨hsne, hschars⟩ := parseI32_shape hs
    obtain ⟨htne, htchars⟩ := parseI32_shape ht
    have hsnws : ∀ c ∈ s, isRustWhitespace c = false := fun c hc => signDigit_not_ws (hschars c hc)
    have htnws : ∀ c ∈ t, isRustWhitespace c = false := fun c hc => signDigit_not_ws (htchars c hc)
    have hacomma : ∀ c ∈ ws1 ++ s ++ ws2, c ≠ ',' := by
      intro c hc
      rcases List.mem_append.mp hc with hc | hc
      · rcases List.mem_append.mp hc with hc | hc
        · exact ws_not_comma (hw1 c hc)
        · exact signDigit_not_comma (hschars c hc)
      · exact ws_not_comma (hw2 c hc)
    have hbcomma : ∀ c ∈ ws3 ++ t ++ ws4, c ≠ ',' := by
      intro c hc
      rcases List.mem_append.mp hc with hc | hc
      · rcases List.mem_append.mp hc with hc | hc
        · exact ws_not_comma (hw3 c hc)
        · exact signDigit_not_comma (htchars c hc)
      · exact ws_not_comma (hw4 c hc)
    have hm : ∀ c ∈ (ws1 ++ s ++ ws2) ++ ',' :: (ws3 ++ t ++ ws4),
        isParenChar c = false := by
      intro c hc
      rcases List.mem_append.mp hc with hc | hc
      · rcases List.mem_append.mp hc with hc | hc
        · rcases List.mem_append.mp hc with hc | hc
          · exact ws_not_paren (hw1 c hc)
          · exact signDigit_not_paren (hschars c hc)
        · exact ws_not_paren (hw2 c hc)
      · rcases List.mem_cons.mp hc with rfl | hc
        · decide
        · rcases List.mem_append.mp hc with hc | hc
          · rcases List.mem_append.mp hc with hc | hc
            · exact ws_not_paren (hw3 c hc)
            · exact signDigit_not_paren (htchars c hc)
          · exact ws_not_paren (hw4 c hc)
    have hmne : (ws1 ++ s ++ ws2) ++ ',' :: (ws3 ++ t ++ ws4) ≠ [] := by
      simp
    have hsplit :
        splitOnComma ((ws1 ++ s ++ ws2) ++ ',' :: (ws3 ++ t ++ ws4)) =
          (ws1 ++ s ++ ws2) :: splitOnComma (ws3 ++ t ++ ws4) :=
      splitOnComma_append hacomma
    have hsplit2 : splitOnComma (ws3 ++ t ++ ws4) = [ws3 ++ t ++ ws4] :=
      splitOnComma_no_comma hbcomma
    have htrim1 : trimWs (ws1 ++ s ++ ws2) = s := trimWs_pad hw1 hw2 hsnws hsne
    have htrim2 : trimWs (ws3 ++ t ++ ws4) = t := trimWs_pad hw3 hw4 htnws htne
    constructor
    · have hp : coordPieces ('(' :: ((ws1 ++ s ++ ws2) ++ ',' :: (ws3 ++ t ++ ws4)) ++ [')']) =
          [s, t] := by
        unfold coordPieces
        rw [trimMatchesBy_paren_wrap hm hmne, hsplit, hsplit2]
        simp [← List.append_assoc, htrim1, htrim2]
      unfold from_str
      rw [hp]
      simp [hs, ht, Cartesian.new]
    · have hp : coordPieces ((ws1 ++ s ++ ws2) ++ ',' :: (ws3 ++ t ++ ws4)) = [s, t] := by
        unfold coordPieces
        rw [trimMatchesBy_eq_self hm, hsplit, hsplit2]
        simp [← List.append_assoc, htrim1, htrim2]
      unfold from_str
      rw [hp]
      simp [hs, ht, Cartesian.new]
  · intro s c0 c1 cs hp herr
    unfold from_str
    rw [hp]
    rcases herr with herr | herr
    · simp [herr]
    · rcases h0 : parseI32 c0 with _ | x0
      · simp [h0]
      · simp [h0, herr]
  · intro s c0 hp
    constructor
    · intro herr
      unfold from_str
      rw [hp]
      simp [herr]
    · intro x hx
      unfold from_str
      rw [hp]
      simp [hx]

/-- C7 (witness): the amended theorem applied at the concrete components
`" 3 "` and `"\u000B-2"` — the second padded with the vertical-tab
whitespace that `str::trim` also strips — with parentheses, and at the
concrete single-component inputs `"abc"` and `"5"`. -/
theorem from_str_spec_witness :
    from_str ('(' :: (([' '] ++ ['3'] ++ [' ']) ++ ',' :: (['\u000B'] ++ ['-', '2'] ++ [])) ++ [')']) =
      ParseOutcome.ok (Cartesian.new 3 (-2)) ∧
    from_str "5".toList = ParseOutcome.panicOOB ∧
    from_str "abc".toList = ParseOutcome.numErr :=
  ⟨(from_str_spec.2.2.1 [' '] [' '] ['\u000B'] [] ['3'] ['-', '2'] 3 (-2)
      (by decide) (by decide) (by decide) (by decide) (by decide) (by decide)).1,
    (from_str_spec.2.2.2.2 "5".toList ['5'] (by decide)).2 5 (by decide),
    (from_str_spec.2.2.2.2 "abc".toList ['a', 'b', 'c'] (by decide)).1 (by decide)⟩

/-! ## Claim C6: path reconstruction -/

section Reconstruct

variable {V : Type} [DecidableEq V]

theorem reconstructAux_props (cf : List (V × V)) :
    ∀ fuel (v : V), chainStops cf (fuel + 1) v = true →
      List.Chain' (fun a b => mlookup cf a = some b) (v :: reconstructAux cf fuel v) ∧
      (∀ z, (v :: reconstructAux cf fuel v).getLast? = some z → mlookup cf z = none) := by
  intro fuel
  induction fuel with
  | zero =>
    intro v hstop
    rcases hv : mlookup cf v with _ | u
    · refine ⟨by simp [reconstructAux], ?_⟩
      intro z hz
      simp [reconstructAux] at hz
      subst hz
      exact hv
    · exfalso
      simp only [chainStops, hv] at hstop
      exact Bool.noConfusion hstop
  | succ fuel ih =>
    intro v hstop
    rcases hv : mlookup cf v with _ | u
    · refine ⟨by simp [reconstructAux, hv], ?_⟩
      intro z hz
      simp [reconstructAux, hv] at hz
      subst hz
      exact hv
    · have hstep : chainStops cf (fuel + 1) u = true := by
        simpa only [chainStops, hv] using hstop
      obtain ⟨hchain, hlast⟩ := ih u hstep
      have haux : reconstructAux cf (fuel + 1) v = u :: reconstructAux cf fuel u := by
        simp [reconstructAux, hv]
      rw [haux]
      refine ⟨List.Chain'.cons hv hchain, ?_⟩
      intro z hz
      rw [List.getLast?_cons_cons] at hz
      exact hlast z hz

theorem chainStops_false_forward (cf : List (V × V)) :
    ∀ n (v : V), chainStops cf n v = false →
      ∀ i < n, ∃ w, iterPred cf i v = some w ∧ w ∈ mkeys cf := by
  intro n
  induction n with
  | zero => intro v _ i hi; omega
  | succ n ih =>
    intro v hfalse i hi
    rcases hv : mlookup cf v with _ | u
    · exfalso
      simp only [chainStops, hv] at hfalse
      exact Bool.noConfusion hfalse
    · have hnext : chainStops cf n u = false := by
        simpa only [chainStops, hv] using hfalse
      cases i with
      | zero =>
        refine ⟨v, rfl, ?_⟩
        have : (mlookup cf v).isSome = true := by simp [hv]
        exact (mlookup_isSome_iff cf v).mp this
      | succ j =>
        have hit : iterPred cf (j + 1) v = iterPred cf j u := by
          simp [iterPred, hv]
        obtain ⟨w, hw1, hw2⟩ := ih u hnext j (by omega)
        exact ⟨w, hit ▸ hw1, hw2⟩

theorem chainAcyclic_stops {cf : List (V × V)} {v : V}
    (h : chainAcyclic cf v) : chainStops cf (cf.length + 1) v = true := by
  by_contra hfalse
  rw [Bool.not_eq_true] at hfalse
  have hall := chainStops_false_forward cf (cf.length + 1) v hfalse
  have hex : ∀ i : Fin (cf.length + 1), ∃ w, iterPred cf (i : Nat) v = some w ∧
      w ∈ mkeys cf := fun i => hall i i.isLt
  choose f hf1 hf2 using hex
  have hinj : Function.Injective f := by
    intro i j hij
    by_contra hne
    rcases Nat.lt_or_ge (i : Nat) (j : Nat) with hlt | hge
    · exact h i j (f i) hlt (hf1 i) (hij ▸ hf1 j)
    · have hlt : (j : Nat) < (i : Nat) := by
        rcases Nat.eq_or_lt_of_le hge with heq | hlt
        · exact absurd (Fin.ext heq.symm) hne
        · exact hlt
      exact h j i (f j) hlt (hf1 j) (hij ▸ hf1 i)
  have hcard : (Finset.univ : Finset (Fin (cf.length + 1))).card ≤
      (mkeys cf).toFinset.card := by
    refine Finset.card_le_card_of_injOn f (fun i _ => List.mem_toFinset.mpr (hf2 i)) ?_
    intro i _ j _ hij
    exact hinj hij
  rw [Finset.card_univ, Fintype.card_fin] at hcard
  have : (mkeys cf).toFinset.card ≤ (mkeys cf).length := List.toFinset_card_le _
  have hlen : (mkeys cf).length = cf.length := List.length_map _ _
  omega

/-- C6 (theorem): `reconstruct_path goal came_from` always starts with
`goal`; and when the predecessor chain from `goal` is acyclic, the
returned sequence is exactly the walk that repeatedly appends each
vertex's recorded predecessor (each consecutive pair is one successful
lookup) and stops at the first vertex with no entry in the map. -/
theorem reconstruct_path_spec (goal : V) (cf : List (V × V)) :
    (reconstruct_path goal cf).head? = some goal ∧
    (chainAcyclic cf goal →
      List.Chain' (fun a b => mlookup cf a = some b) (reconstruct_path goal cf) ∧
      (∀ z, (reconstruct_path goal cf).getLast? = some z → mlookup cf z = none)) := by
  refine ⟨by simp [reconstruct_path], ?_⟩
  intro hacyc
  have hstop := chainAcyclic_stops hacyc
  exact reconstructAux_props cf cf.length goal hstop

/-- C6 (witness): the theorem applied to the concrete predecessor map
`[(2, 1)]` with goal `2`, whose chain `2, 1` is acyclic. -/
theorem reconstruct_path_spec_witness :
    chainAcyclic [((2 : Nat), (1 : Nat))] 2 ∧
    (reconstruct_path 2 [((2 : Nat), (1 : Nat))]).head? = some 2 ∧
    List.Chain' (fun a b => mlookup [((2 : Nat), (1 : Nat))] a = some b)
      (reconstruct_path 2 [((2 : Nat), (1 : Nat))]) ∧
    (∀ z, (reconstruct_path 2 [((2 : Nat), (1 : Nat))]).getLast? = some z →
      mlookup [((2 : Nat), (1 : Nat))] z = none) := by
  have hacyc : chainAcyclic [((2 : Nat), (1 : Nat))] 2 := by
    intro i j w hij hi hj
    have hnone : ∀ k, iterPred [((2 : Nat), (1 : Nat))] (k + 2) 2 = none := fun k => rfl
    by_cases hj2 : j ≤ 1
    · have hi1 : i ≤ 1 := by omega
      interval_cases i <;> interval_cases j <;>
        simp [iterPred, mlookup] at hi hj <;> omega
    · obtain ⟨k, rfl⟩ : ∃ k, j = k + 2 := ⟨j - 2, by omega⟩
      rw [hnone k] at hj
      exact Option.noConfusion hj
  have h := reconstruct_path_spec 2 [((2 : Nat), (1 : Nat))]
  exact ⟨hacyc, h.1, (h.2 hacyc).1, (h.2 hacyc).2⟩

end Reconstruct

/-! ## Claim C4: the BFS loop body -/

/-- C4 (theorem): `bfs_search_all` seeds a FIFO frontier with `start` (no
predecessors, no results); each iteration of the loop on a frontier
`cur :: rest` behaves exactly as the spec-side step `bfsStepSpec`
(distance-0 pop records one reconstructed path and is not expanded, any
other pop records `cur` as predecessor of each of its neighbors,
overwriting, and appends them to the frontier tail); and on the concrete
diamond graph the goal vertex is popped twice, so two identical paths are
recorded — one per occurrence, duplicates included. -/
theorem bfs_search_all_steps :
    (∀ {V : Type} [DecidableEq V] (G : GraphI V) (fuel : Nat) (start goal : V),
      bfs_search_all G fuel start goal =
        bfsLoop G goal fuel { queue := [start], prev := [], result := [] }) ∧
    (∀ {V : Type} [DecidableEq V] (G : GraphI V) (goal : V) (fuel : Nat)
      (s : BfsState V) (cur : V) (rest : List V), s.queue = cur :: rest →
      bfsLoop G goal (fuel + 1) s = bfsLoop G goal fuel (bfsStepSpec G goal cur rest s)) ∧
    bfs_search_all diamondG 20 0 3 =
      BfsOut.done [[3, 2, 0], [3, 2, 0]] := by
  refine ⟨fun G fuel start goal => rfl, ?_, by decide⟩
  intro V _ G goal fuel s cur rest hq
  obtain ⟨q, p, r⟩ := s
  simp only at hq
  subst hq
  rw [bfsLoop, bfsStepSpec]
  by_cases hd : G.distance cur goal = 0
  · simp [hd]
  · simp [hd]

/-- C4 (witness): the step theorem applied to the concrete diamond graph at
the initial state, whose frontier is `0 :: []`. -/
theorem bfs_search_all_steps_witness :
    (BfsState.queue { queue := [0], prev := [], result := [] } = 0 :: ([] : List Nat)) ∧
    bfsLoop diamondG 3 1 { queue := [0], prev := [], result := [] } =
      bfsLoop diamondG 3 0
        (bfsStepSpec diamondG 3 0 [] { queue := [0], prev := [], result := [] }) :=
  ⟨rfl, bfs_search_all_steps.2.1 diamondG 3 0
    { queue := [0], prev := [], result := [] } 0 [] rfl⟩

/-! ## Structural lemmas about one A* expansion -/

section AstarStep

variable {V : Type} [DecidableEq V]

theorem relaxNeighbor_some_parts {G : GraphI V} {goal cur : V} {s : AState V}
    {n : V} {s' : AState V} (h : relaxNeighbor G goal cur s n = some s') :
    s'.closed = s.closed ∧ ∃ sc, s'.openList = s.openList ++ [(sc, n)] := by
  unfold relaxNeighbor at h
  rcases hg : mlookup s.g_score cur with _ | gcur
  · rw [hg] at h
    exact Option.noConfusion h
  · rw [hg] at h
    simp only at h
    split at h
    · rw [Option.some.injEq] at h
      subst h
      exact ⟨rfl, _, rfl⟩
    · rw [Option.some.injEq] at h
      subst h
      exact ⟨rfl, _, rfl⟩

theorem relaxNeighbor_none_iff {G : GraphI V} {goal cur : V} {s : AState V}
    {n : V} : relaxNeighbor G goal cur s n = none ↔ mlookup s.g_score cur = none := by
  unfold relaxNeighbor
  rcases hg : mlookup s.g_score cur with _ | gcur
  · simp [hg]
  · simp only [hg]
    constructor
    · intro h
      split at h <;> exact Option.noConfusion h
    · intro h
      exact Option.noConfusion h

theorem foldRelax_open_closed {G : GraphI V} {goal cur : V} :
    ∀ (ns : List V) (s0 s1 : AState V),
      ns.foldlM (relaxNeighbor G goal cur) s0 = some s1 →
      s1.closed = s0.closed ∧
      ∃ ps, s1.openList = s0.openList ++ ps ∧ ∀ e ∈ ps, e.2 ∈ ns := by
  intro ns
  induction ns with
  | nil =>
    intro s0 s1 h
    simp [List.foldlM] at h
    subst h
    exact ⟨rfl, [], by simp⟩
  | cons n ns ih =>
    intro s0 s1 h
    rw [List.foldlM_cons] at h
    rcases hr : relaxNeighbor G goal cur s0 n with _ | t
    · rw [hr] at h
      exact Option.noConfusion h
    · rw [hr] at h
      simp only [Option.bind_eq_bind, Option.some_bind] at h
      obtain ⟨hc1, sc, ho1⟩ := relaxNeighbor_some_parts hr
      obtain ⟨hc2, ps, ho2, hps⟩ := ih t s1 h
      refine ⟨hc2.trans hc1, (sc, n) :: ps, ?_, ?_⟩
      · rw [ho2, ho1, List.append_assoc]
        rfl
      · intro e he
        rcases List.mem_cons.mp he with rfl | he
        · exact List.mem_cons_self n ns
        · exact List.mem_cons_of_mem n (hps e he)

theorem astarStep_open_closed {G : GraphI V} {goal cur : V}
    {rest : List (Nat × V)} {s s' : AState V}
    (h : astarStep G goal cur rest s = some s') :
    s'.closed = insertSet cur s.closed ∧
    ∃ ps, s'.openList = rest ++ ps ∧
      ∀ e ∈ ps, e.2 ∈ G.neighbors cur ∧ e.2 ∉ s'.closed := by
  unfold astarStep at h
  obtain ⟨hc, ps, ho, hps⟩ := foldRelax_open_closed _ _ _ h
  simp only at hc ho
  refine ⟨hc, ps, ho, ?_⟩
  intro e he
  have hmem := hps e he
  rw [List.mem_filter] at hmem
  refine ⟨hmem.1, ?_⟩
  rw [hc]
  simpa using hmem.2

end AstarStep

/-! ## Claim C2: stale frontier entries -/

/-- C2 (counterexample): on the concrete diamond graph, after four
expansions the A* state has vertex 3 in the closed set while a stale
frontier entry `(3, 3)` for it remains; that entry is then popped and the
vertex is re-expanded — its neighbors are generated again and a duplicate
entry for vertex 4 is pushed — instead of the stale entry being filtered
out (the frontier after the pop is not just the remaining entry list). -/
theorem astar_stale_pop_reexpands :
    astarLoop exG 9 4 (astarInit 0) =
      AOut.fuelOut { openList := [(3, 3), (13, 4)], closed := [3, 2, 1, 0],
                     came_from := [(1, 0), (2, 0), (3, 1), (4, 3)],
                     g_score := [(0, 0), (1, 1), (2, 1), (3, 2), (4, 3)],
                     f_score := [(0, 18446744073709551615), (1, 2), (2, 2), (3, 3), (4, 13)] } ∧
    popMin [((3 : Nat), (3 : Nat)), (13, 4)] = some ((3, 3), [(13, 4)]) ∧
    (3 : Nat) ∈ [(3 : Nat), 2, 1, 0] ∧
    astarStep exG 9 3 [(13, 4)]
      { openList := [(3, 3), (13, 4)], closed := [3, 2, 1, 0],
        came_from := [(1, 0), (2, 0), (3, 1), (4, 3)],
        g_score := [(0, 0), (1, 1), (2, 1), (3, 2), (4, 3)],
        f_score := [(0, 18446744073709551615), (1, 2), (2, 2), (3, 3), (4, 13)] } =
      some { openList := [(13, 4), (13, 4)], closed := [3, 2, 1, 0],
             came_from := [(1, 0), (2, 0), (3, 1), (4, 3)],
             g_score := [(0, 0), (1, 1), (2, 1), (3, 2), (4, 3)],
             f_score := [(0, 18446744073709551615), (1, 2), (2, 2), (3, 3), (4, 13)] } ∧
    [((13 : Nat), (4 : Nat)), (13, 4)] ≠ [(13, 4)] :=
  ⟨by decide, by decide, by decide, by decide, by decide⟩

/-- C2 (amended): stale entries are not filtered at pop time — a popped
vertex is always re-expanded, its neighbors generated again — but a vertex
in the closed set never has a new frontier entry pushed for it: every
entry appended by an expansion is for a neighbor outside the updated
closed set (the closed-set filter acts on neighbor generation, not on
pops), and the popped vertex itself always joins the closed set. -/
theorem astar_closed_never_repushed :
    ∀ {V : Type} [DecidableEq V] (G : GraphI V) (goal cur : V)
      (rest : List (Nat × V)) (s s' : AState V),
      astarStep G goal cur rest s = some s' →
      s'.closed = insertSet cur s.closed ∧
      ∃ ps, s'.openList = rest ++ ps ∧
        ∀ e ∈ ps, e.2 ∈ G.neighbors cur ∧ e.2 ∉ s'.closed :=
  fun G goal cur rest s s' h => astarStep_open_closed h

/-- C2 (witness): the amended theorem applied to the concrete stale
expansion of vertex 3 in the diamond graph. -/
theorem astar_closed_never_repushed_witness :
    astarStep exG 9 3 [(13, 4)]
      { openList := [(3, 3), (13, 4)], closed := [3, 2, 1, 0],
        came_from := [(1, 0), (2, 0), (3, 1), (4, 3)],
        g_score := [(0, 0), (1, 1), (2, 1), (3, 2), (4, 3)],
        f_score := [(0, 18446744073709551615), (1, 2), (2, 2), (3, 3), (4, 13)] } =
      some { openList := [(13, 4), (13, 4)], closed := [3, 2, 1, 0],
             came_from := [(1, 0), (2, 0), (3, 1), (4, 3)],
             g_score := [(0, 0), (1, 1), (2, 1), (3, 2), (4, 3)],
             f_score := [(0, 18446744073709551615), (1, 2), (2, 2), (3, 3), (4, 13)] } ∧
    ∃ ps, ([((13 : Nat), (4 : Nat)), (13, 4)] : List (Nat × Nat)) = [(13, 4)] ++ ps ∧
      ∀ e ∈ ps, e.2 ∈ exG.neighbors 3 ∧ e.2 ∉ [(3 : Nat), 2, 1, 0] := by
  have h : astarStep exG 9 3 [(13, 4)]
      { openList := [(3, 3), (13, 4)], closed := [3, 2, 1, 0],
        came_from := [(1, 0), (2, 0), (3, 1), (4, 3)],
        g_score := [(0, 0), (1, 1), (2, 1), (3, 2), (4, 3)],
        f_score := [(0, 18446744073709551615), (1, 2), (2, 2), (3, 3), (4, 13)] } =
      some { openList := [(13, 4), (13, 4)], closed := [3, 2, 1, 0],
             came_from := [(1, 0), (2, 0), (3, 1), (4, 3)],
             g_score := [(0, 0), (1, 1), (2, 1), (3, 2), (4, 3)],
             f_score := [(0, 18446744073709551615), (1, 2), (2, 2), (3, 3), (4, 13)] } := by
    decide
  obtain ⟨hc, ps, ho, hps⟩ := astar_closed_never_repushed exG 9 3 [(13, 4)] _ _ h
  refine ⟨h, ps, ho, ?_⟩
  intro e he
  obtain ⟨h1, h2⟩ := hps e he
  refine ⟨h1, ?_⟩
  rw [hc] at h2
  simpa [insertSet] using h2

/-! ## Claim C9: the unguarded `g_score` index never fails -/

section NeverPanics

variable {V : Type} [DecidableEq V]

theorem relaxNeighbor_g_keys {G : GraphI V} {goal cur : V} {s : AState V}
    {n : V} {s' : AState V} (h : relaxNeighbor G goal cur s n = some s') :
    (∀ k, k ∈ mkeys s.g_score → k ∈ mkeys s'.g_score) ∧ n ∈ mkeys s'.g_score := by
  unfold relaxNeighbor at h
  rcases hg : mlookup s.g_score cur with _ | gcur
  · rw [hg] at h
    exact Option.noConfusion h
  · rw [hg] at h
    simp only at h
    have hg1 : ∀ k, k ∈ mkeys s.g_score →
        k ∈ mkeys (if n ∈ mkeys s.g_score then s.g_score else minsert s.g_score n usizeMAX) := by
      intro k hk
      split
      · exact hk
      · exact (mem_mkeys_minsert _ n usizeMAX k).mpr (Or.inr hk)
    have hg2 : n ∈ mkeys (if n ∈ mkeys s.g_score then s.g_score else minsert s.g_score n usizeMAX) := by
      split
      · assumption
      · exact (mem_mkeys_minsert _ n usizeMAX n).mpr (Or.inl rfl)
    split at h
    · rw [Option.some.injEq] at h
      subst h
      refine ⟨fun k hk => ?_, ?_⟩
      · exact (mem_mkeys_minsert _ n _ k).mpr (Or.inr (hg1 k hk))
      · exact (mem_mkeys_minsert _ n _ n).mpr (Or.inl rfl)
    · rw [Option.some.injEq] at h
      subst h
      exact ⟨hg1, hg2⟩

theorem foldRelax_some {G : GraphI V} {goal cur : V} :
    ∀ (ns : List V) (s0 : AState V), cur ∈ mkeys s0.g_score →
      ∃ s1, ns.foldlM (relaxNeighbor G goal cur) s0 = some s1 ∧
        (∀ k, k ∈ mkeys s0.g_score → k ∈ mkeys s1.g_score) ∧
        (∀ e ∈ s1.openList, e ∈ s0.openList ∨ e.2 ∈ mkeys s1.g_score) := by
  intro ns
  induction ns with
  | nil =>
    intro s0 hcur
    exact ⟨s0, by simp [List.foldlM], fun k hk => hk, fun e he => Or.inl he⟩
  | cons n ns ih =>
    intro s0 hcur
    rcases hr : relaxNeighbor G goal cur s0 n with _ | t
    · exfalso
      rw [relaxNeighbor_none_iff] at hr
      rw [mlookup_eq_none_iff] at hr
      exact hr hcur
    · obtain ⟨hkeys, hn⟩ := relaxNeighbor_g_keys hr
      obtain ⟨_, sc, hop⟩ := relaxNeighbor_some_parts hr
      obtain ⟨s1, hfold, hkeys2, hop2⟩ := ih t (hkeys cur hcur)
      refine ⟨s1, ?_, fun k hk => hkeys2 k (hkeys k hk), ?_⟩
      · rw [List.foldlM_cons, hr]
        simpa using hfold
      · intro e he
        rcases hop2 e he with he2 | he2
        · rw [hop] at he2
          rcases List.mem_append.mp he2 with he3 | he3
          · exact Or.inl he3
          · simp at he3
            subst he3
            exact Or.inr (hkeys2 n hn)
        · exact Or.inr he2

theorem astarLoop_ne_panicked {G : GraphI V} {goal : V} :
    ∀ (fuel : Nat) (s : AState V),
      (∀ e ∈ s.openList, e.2 ∈ mkeys s.g_score) →
      astarLoop G goal fuel s ≠ AOut.panicked := by
  intro fuel
  induction fuel with
  | zero =>
    intro s _ h
    rw [astarLoop] at h
    exact AOut.noConfusion h
  | succ fuel ih =>
    intro s hP h
    rw [astarLoop] at h
    rcases hpop : popMin s.openList with _ | er
    · rw [hpop] at h
      exact AOut.noConfusion h
    · obtain ⟨⟨sc, cur⟩, rest⟩ := er
      simp only [hpop] at h
      by_cases hd : G.distance cur goal = 0
      · rw [if_pos hd] at h
        exact AOut.noConfusion h
      · rw [if_neg hd] at h
        have hcur : cur ∈ mkeys s.g_score := hP (sc, cur) (popMin_mem hpop)
        obtain ⟨s', hfold, hkeys, hop⟩ :=
          @foldRelax_some _ _ G goal cur
            ((G.neighbors cur).filter (fun n => decide (n ∉ insertSet cur s.closed)))
            { s with openList := rest, closed := insertSet cur s.closed } hcur
        have hstep : astarStep G goal cur rest s = some s' := by
          unfold astarStep
          exact hfold
        rw [hstep] at h
        refine ih s' ?_ h
        intro e he
        rcases hop e he with he2 | he2
        · exact hkeys e.2 (hP e (popMin_mem_rest hpop he2))
        · exact he2

/-- C9 (theorem): the unguarded `g_score[&current.vertex]` lookup never
fails: for every graph instance, fuel, start and goal, running
`astar_search` never produces the panic outcome, because every vertex ever
pushed onto the frontier has a `g_score` entry inserted no later than the
push (the start vertex at initialization, every neighbor via
`or_insert(usize::MAX)` in the same loop iteration). -/
theorem astar_search_never_panics :
    ∀ {V : Type} [DecidableEq V] (G : GraphI V) (fuel : Nat) (start goal : V),
      astar_search G fuel start goal ≠ AOut.panicked := by
  intro V _ G fuel start goal
  unfold astar_search
  refine astarLoop_ne_panicked fuel (astarInit start) ?_
  intro e he
  unfold astarInit at he ⊢
  simp only at he
  rcases List.mem_singleton.mp he with rfl
  simp [mkeys, minsert]

end NeverPanics

/-! ## Claims C10 and C5: path counting -/

section Counting

variable {V : Type} [DecidableEq V]

theorem countRef_mono (G : GraphI V) :
    ∀ (fuel : Nat), (∀ (v : V) (n : Nat),
      countRef G fuel v = some n → countRef G (fuel + 1) v = some n) := by
  intro fuel
  induction fuel with
  | zero =>
    intro v n h
    rw [countRef] at h
    exact Option.noConfusion h
  | succ fuel ih =>
    have hfold : ∀ (ns : List V) (m : Nat), countRefFold G fuel ns = some m →
        countRefFold G (fuel + 1) ns = some m := by
      intro ns
      induction ns with
      | nil =>
        intro m h
        rw [countRefFold] at h ⊢
        exact h
      | cons n ns ihns =>
        intro m h
        rw [countRefFold] at h ⊢
        rcases hn : countRef G fuel n with _ | c
        · rw [hn] at h
          exact Option.noConfusion h
        · rw [hn] at h
          rw [ih n c hn]
          simp only at h ⊢
          rcases hs : countRefFold G fuel ns with _ | sm
          · rw [hs] at h
            exact Option.noConfusion h
          · rw [hs] at h
            rw [ihns sm hs]
            exact h
    intro v n h
    rw [countRef] at h ⊢
    by_cases hne : G.neighbors v = []
    · rw [if_pos hne] at h ⊢
      exact h
    · rw [if_neg hne] at h ⊢
      exact hfold _ n h

theorem countRef_mono_le (G : GraphI V) {f f' : Nat} {v : V} {n : Nat}
    (h : countRef G f v = some n) (hle : f ≤ f') : countRef G f' v = some n := by
  induction f' with
  | zero =>
    have : f = 0 := by omega
    subst this
    exact h
  | succ f' ih =>
    rcases Nat.eq_or_lt_of_le hle with rfl | hlt
    · exact h
    · exact countRef_mono G f' v n (ih (by omega))

theorem countRef_det (G : GraphI V) {f1 f2 : Nat} {v : V} {a b : Nat}
    (h1 : countRef G f1 v = some a) (h2 : countRef G f2 v = some b) : a = b := by
  have ha := countRef_mono_le G h1 (Nat.le_max_left f1 f2)
  have hb := countRef_mono_le G h2 (Nat.le_max_right f1 f2)
  rw [ha] at hb
  exact Option.some.injEq .. ▸ hb

theorem countRef_pos (G : GraphI V) :
    ∀ (fuel : Nat) (v : V) (n : Nat), countRef G fuel v = some n → 1 ≤ n := by
  intro fuel
  induction fuel with
  | zero =>
    intro v n h
    rw [countRef] at h
    exact Option.noConfusion h
  | succ fuel ih =>
    have hfold : ∀ (ns : List V) (m : Nat), countRefFold G fuel ns = some m →
        ns = [] ∨ 1 ≤ m := by
      intro ns
      induction ns with
      | nil =>
        intro m _
        exact Or.inl rfl
      | cons n ns ihns =>
        intro m h
        rw [countRefFold] at h
        rcases hn : countRef G fuel n with _ | c
        · rw [hn] at h
          exact Option.noConfusion h
        · rw [hn] at h
          simp only at h
          rcases hs : countRefFold G fuel ns with _ | sm
          · rw [hs] at h
            exact Option.noConfusion h
          · rw [hs] at h
            rw [Option.some.injEq] at h
            subst h
            have := ih n c hn
            exact Or.inr (by omega)
    intro v n h
    rw [countRef] at h
    by_cases hne : G.neighbors v = []
    · rw [if_pos hne] at h
      rw [Option.some.injEq] at h
      omega
    · rw [if_neg hne] at h
      rcases hfold _ n h with h1 | h1
      · exact absurd h1 hne
      · exact h1

theorem count_paths_internal_eq_ref (G : GraphI V) :
    ∀ (fuel : Nat),
      (∀ (memo : List (V × Nat)) (v : V) (n : Nat),
        (∀ k c, (k, c) ∈ memo → ∃ f nn, countRef G f k = some nn ∧ c = nn % 2 ^ 64) →
        countRef G fuel v = some n →
        ∃ m', count_paths_internal G fuel memo v = some (n % 2 ^ 64, m') ∧
          ∀ k c, (k, c) ∈ m' → ∃ f nn, countRef G f k = some nn ∧ c = nn % 2 ^ 64) := by
  intro fuel
  induction fuel with
  | zero =>
    intro memo v n _ h
    rw [countRef] at h
    exact Option.noConfusion h
  | succ fuel ih =>
    have hfold : ∀ (ns : List V) (memo : List (V × Nat)) (acc m : Nat),
        acc < 2 ^ 64 →
        (∀ k c, (k, c) ∈ memo → ∃ f nn, countRef G f k = some nn ∧ c = nn % 2 ^ 64) →
        countRefFold G fuel ns = some m →
        ∃ m', countFold G fuel memo acc ns = some ((acc + m) % 2 ^ 64, m') ∧
          ∀ k c, (k, c) ∈ m' → ∃ f nn, countRef G f k = some nn ∧ c = nn % 2 ^ 64 := by
      intro ns
      induction ns with
      | nil =>
        intro memo acc m hacc hmemo h
        rw [countRefFold] at h
        rw [Option.some.injEq] at h
        subst h
        refine ⟨memo, ?_, hmemo⟩
        have hmod : (acc + 0) % 2 ^ 64 = acc := by omega
        rw [countFold, hmod]
      | cons n ns ihns =>
        intro memo acc m hacc hmemo h
        rw [countRefFold] at h
        rcases hn : countRef G fuel n with _ | c
        · rw [hn] at h
          exact Option.noConfusion h
        · rw [hn] at h
          simp only at h
          rcases hs : countRefFold G fuel ns with _ | sm
          · rw [hs] at h
            exact Option.noConfusion h
          · rw [hs] at h
            rw [Option.some.injEq] at h
            subst h
            obtain ⟨m1, hcpi, hm1⟩ := ih memo n c hmemo hn
            obtain ⟨m', hfold2, hm'⟩ := ihns m1 ((acc + c % 2 ^ 64) % 2 ^ 64) sm
              (Nat.mod_lt _ (by omega)) hm1 hs
            refine ⟨m', ?_, hm'⟩
            rw [countFold, hcpi]
            simp only
            rw [hfold2]
            have hmod : ((acc + c % 2 ^ 64) % 2 ^ 64 + sm) % 2 ^ 64 =
                (acc + (c + sm)) % 2 ^ 64 := by omega
            rw [hmod]
    intro memo v n hmemo h
    rcases hl : mlookup memo v with _ | c0
    · rw [countRef] at h
      by_cases hne : G.neighbors v = []
      · rw [if_pos hne] at h
        rw [Option.some.injEq] at h
        subst h
        refine ⟨minsert memo v 1, ?_, ?_⟩
        · have h1 : (1 : Nat) % 2 ^ 64 = 1 := by omega
          rw [h1]
          rw [count_paths_internal, hl]
          simp only [hne]
          simp
        · intro k c hk
          rcases mem_minsert_weak hk with ⟨rfl, rfl⟩ | hk2
          · refine ⟨fuel + 1, 1, ?_, by omega⟩
            rw [countRef, if_pos hne]
          · exact hmemo k c hk2
      · rw [if_neg hne] at h
        obtain ⟨m2, hfold2, hm2⟩ := hfold (G.neighbors v) memo 0 n (by omega) hmemo h
        refine ⟨minsert m2 v (n % 2 ^ 64), ?_, ?_⟩
        · rw [count_paths_internal, hl]
          simp only
          rw [if_pos (by
            cases hgn : G.neighbors v
            · exact absurd hgn hne
            · simp)]
          rw [show (0 : Nat) + n = n from by omega] at hfold2
          rw [hfold2]
        · intro k c hk
          rcases mem_minsert_weak hk with ⟨rfl, rfl⟩ | hk2
          · exact ⟨fuel + 1, n, by rw [countRef, if_neg hne]; exact h, rfl⟩
          · exact hm2 k c hk2
    · obtain ⟨f0, nn0, hf0, hc0⟩ := hmemo v c0 (mem_of_mlookup_eq_some hl)
      have heq : nn0 = n := countRef_det G hf0 h
      subst heq
      refine ⟨memo, ?_, hmemo⟩
      rw [count_paths_internal, hl, hc0]

/-- C10 (amended theorem): whenever the reference path count is defined
and fits in `usize` — so the wrapping `paths += ...` accumulation never
overflows — `count_paths` returns exactly that count, and it is at least
1: the memo table only ever stores fully computed positive counts. -/
theorem count_paths_pos :
    ∀ {V : Type} [DecidableEq V] (G : GraphI V) (fuel : Nat) (v : V) (n : Nat),
      countRef G fuel v = some n → n < 2 ^ 64 →
      count_paths G fuel v = some n ∧ 1 ≤ n := by
  intro V _ G fuel v n h hlt
  obtain ⟨m', hcpi, _⟩ := count_paths_internal_eq_ref G fuel [] v n (by simp) h
  refine ⟨?_, countRef_pos G fuel v n h⟩
  unfold count_paths
  rw [hcpi, Nat.mod_eq_of_lt hlt]

/-- C10 (witness): the theorem applied to the concrete diamond graph,
whose reference count 2 fits in `usize`, so `count_paths` returns 2 ≥ 1. -/
theorem count_paths_pos_witness :
    countRef diamondG 10 0 = some 2 ∧ (2 : Nat) < 2 ^ 64 ∧
      count_paths diamondG 10 0 = some 2 ∧ 1 ≤ 2 := by
  have href : countRef diamondG 10 0 = some 2 := by
    simp [countRef, countRefFold, diamondG, diamondN]
  exact ⟨href, by decide, count_paths_pos diamondG 10 0 2 href (by decide)⟩

theorem buildForest_length (G : GraphI V) :
    ∀ (fuel : Nat) (ns : List V) (ts : List (RTree V)),
      buildForest G fuel ns = some ts → ts.length = ns.length := by
  intro fuel ns
  induction ns generalizing fuel with
  | nil =>
    intro ts h
    rw [buildForest] at h
    rw [Option.some.injEq] at h
    subst h
    rfl
  | cons n ns ihns =>
    intro ts h
    rw [buildForest] at h
    rcases ht : buildTree G fuel n with _ | t
    · rw [ht] at h
      exact Option.noConfusion h
    · rw [ht] at h
      simp only at h
      rcases hts : buildForest G fuel ns with _ | ts2
      · rw [hts] at h
        exact Option.noConfusion h
      · rw [hts] at h
        rw [Option.some.injEq] at h
        subst h
        simp [ihns fuel ts2 hts]

theorem buildTree_countRef (G : GraphI V) :
    ∀ (fuel : Nat),
      (∀ (v : V) (t : RTree V), buildTree G fuel v = some t →
        countRef G fuel v = some (RTleaves t).length) := by
  intro fuel
  induction fuel with
  | zero =>
    intro v t h
    rw [buildTree] at h
    exact Option.noConfusion h
  | succ fuel ih =>
    have hfold : ∀ (ns : List V) (ts : List (RTree V)),
        buildForest G fuel ns = some ts →
        countRefFold G fuel ns = some (RTleavesForest ts).length := by
      intro ns
      induction ns with
      | nil =>
        intro ts h
        rw [buildForest] at h
        rw [Option.some.injEq] at h
        subst h
        rw [countRefFold]
        rfl
      | cons n ns ihns =>
        intro ts h
        rw [buildForest] at h
        rcases ht : buildTree G fuel n with _ | t
        · rw [ht] at h
          exact Option.noConfusion h
        · rw [ht] at h
          simp only at h
          rcases hts : buildForest G fuel ns with _ | ts2
          · rw [hts] at h
            exact Option.noConfusion h
          · rw [hts] at h
            rw [Option.some.injEq] at h
            subst h
            rw [countRefFold, ih n t ht]
            simp only
            rw [ihns ts2 hts]
            simp [RTleavesForest]
    intro v t h
    rw [buildTree] at h
    rcases hf : buildForest G fuel (G.neighbors v) with _ | ts
    · rw [hf] at h
      exact Option.noConfusion h
    · rw [hf] at h
      rw [Option.some.injEq] at h
      subst h
      rw [countRef]
      by_cases hne : G.neighbors v = []
      · rw [if_pos hne]
        have : ts = [] := by
          have := buildForest_length G fuel _ _ hf
          rw [hne] at this
          simpa using List.length_eq_zero.mp this
        subst this
        rw [RTleaves]
        simp
      · rw [if_neg hne]
        rw [hfold _ ts hf]
        have hts : ¬ ts.isEmpty = true := by
          have := buildForest_length G fuel _ _ hf
          intro he
          rw [List.isEmpty_iff] at he
          subst he
          simp at this
          exact hne (List.length_eq_zero.mp this.symm)
        rw [RTleaves, if_neg hts]

theorem buildTree_filter_leaves (G : GraphI V) :
    ∀ (fuel : Nat),
      (∀ (v : V) (t : RTree V), buildTree G fuel v = some t →
        (RTvertices t).filter (fun u => G.neighbors u = []) = RTleaves t) := by
  intro fuel
  induction fuel with
  | zero =>
    intro v t h
    rw [buildTree] at h
    exact Option.noConfusion h
  | succ fuel ih =>
    have hfold : ∀ (ns : List V) (ts : List (RTree V)),
        buildForest G fuel ns = some ts →
        (RTverticesForest ts).filter (fun u => G.neighbors u = []) =
          RTleavesForest ts := by
      intro ns
      induction ns with
      | nil =>
        intro ts h
        rw [buildForest] at h
        rw [Option.some.injEq] at h
        subst h
        rfl
      | cons n ns ihns =>
        intro ts h
        rw [buildForest] at h
        rcases ht : buildTree G fuel n with _ | t
        · rw [ht] at h
          exact Option.noConfusion h
        · rw [ht] at h
          simp only at h
          rcases hts : buildForest G fuel ns with _ | ts2
          · rw [hts] at h
            exact Option.noConfusion h
          · rw [hts] at h
            rw [Option.some.injEq] at h
            subst h
            rw [RTverticesForest, RTleavesForest, List.filter_append,
              ih n t ht, ihns ts2 hts]
    intro v t h
    rw [buildTree] at h
    rcases hf : buildForest G fuel (G.neighbors v) with _ | ts
    · rw [hf] at h
      exact Option.noConfusion h
    · rw [hf] at h
      rw [Option.some.injEq] at h
      subst h
      by_cases hne : G.neighbors v = []
      · have : ts = [] := by
          have := buildForest_length G fuel _ _ hf
          rw [hne] at this
          simpa using List.length_eq_zero.mp this
        subst this
        rw [RTvertices, RTleaves]
        simp [RTverticesForest, List.filter_cons, hne]
      · have hts : ¬ ts.isEmpty = true := by
          have := buildForest_length G fuel _ _ hf
          intro he
          rw [List.isEmpty_iff] at he
          subst he
          simp at this
          exact hne (List.length_eq_zero.mp this.symm)
        rw [RTvertices, RTleaves, if_neg hts]
        rw [List.filter_cons]
        rw [if_neg (by simpa using hne)]
        exact hfold _ ts hf

/-- C5 (amended theorem): `count_paths` computes the spec's reference
recursion (1 on a node with no neighbors, otherwise the sum of the counts
of the neighbors) reduced modulo `2 ^ 64` — the wrapping `usize`
accumulation is the only divergence — so whenever the reference count
fits in `usize` the two agree exactly, and on a tree with pairwise
distinct vertices whose leaf count fits in `usize` the result is the
number of distinct reachable leaves; memoization never changes the
returned count. -/
theorem count_paths_eq_reference :
    (∀ {V : Type} [DecidableEq V] (G : GraphI V) (fuel : Nat) (v : V) (n : Nat),
      countRef G fuel v = some n → count_paths G fuel v = some (n % 2 ^ 64)) ∧
    (∀ {V : Type} [DecidableEq V] (G : GraphI V) (fuel : Nat) (v : V) (n : Nat),
      countRef G fuel v = some n → n < 2 ^ 64 → count_paths G fuel v = some n) ∧
    (∀ {V : Type} [DecidableEq V] (G : GraphI V) (fuel : Nat) (v : V) (t : RTree V),
      buildTree G fuel v = some t → (RTvertices t).Nodup →
      (RTleaves t).length < 2 ^ 64 →
      count_paths G fuel v = some (reachableLeafCount G t)) := by
  have hmain : ∀ {V : Type} [DecidableEq V] (G : GraphI V) (fuel : Nat) (v : V) (n : Nat),
      countRef G fuel v = some n → count_paths G fuel v = some (n % 2 ^ 64) := by
    intro V _ G fuel v n h
    obtain ⟨m', hcpi, _⟩ := count_paths_internal_eq_ref G fuel [] v n (by simp) h
    unfold count_paths
    rw [hcpi]
  have hexact : ∀ {V : Type} [DecidableEq V] (G : GraphI V) (fuel : Nat) (v : V) (n : Nat),
      countRef G fuel v = some n → n < 2 ^ 64 → count_paths G fuel v = some n := by
    intro V _ G fuel v n h hlt
    rw [hmain G fuel v n h, Nat.mod_eq_of_lt hlt]
  refine ⟨hmain, hexact, ?_⟩
  intro V _ G fuel v t hbuild hnodup hlt
  have hcount : countRef G fuel v = some (RTleaves t).length :=
    buildTree_countRef G fuel v t hbuild
  have hfilter := buildTree_filter_leaves G fuel v t hbuild
  have hldedup : ((RTvertices t).filter (fun u => G.neighbors u = [])).dedup =
      (RTvertices t).filter (fun u => G.neighbors u = []) :=
    List.dedup_eq_self.mpr (List.Nodup.filter _ hnodup)
  have hleaf : reachableLeafCount G t = (RTleaves t).length := by
    unfold reachableLeafCount
    rw [hldedup, hfilter]
  rw [hleaf]
  exact hexact G fuel v _ hcount hlt

/-- C5 (witness): the theorem applied to the two-leaf tree `0 → 1, 2`:
the expansion tree at fuel 3 has distinct vertices `0, 1, 2`, two of which
are leaves, the leaf count 2 fits in `usize`, and `count_paths`
returns 2. -/
theorem count_paths_eq_reference_witness :
    buildTree treeG 3 0 = some (RTree.node 0 [RTree.node 1 [], RTree.node 2 []]) ∧
    (RTvertices (RTree.node 0 [RTree.node 1 [], RTree.node 2 []])).Nodup ∧
    (RTleaves (RTree.node 0 [RTree.node 1 [], RTree.node 2 []])).length < 2 ^ 64 ∧
    count_paths treeG 3 0 =
      some (reachableLeafCount treeG
        (RTree.node 0 [RTree.node 1 [], RTree.node 2 []])) := by
  have hb : buildTree treeG 3 0 =
      some (RTree.node 0 [RTree.node 1 [], RTree.node 2 []]) := by
    simp [buildTree, buildForest, treeG, treeN]
  have hlt : (RTleaves (RTree.node 0 [RTree.node 1 [], RTree.node 2 []])).length <
      2 ^ 64 := by
    simp [RTleaves, RTleavesForest]
  refine ⟨hb, ?_, hlt, ?_⟩
  · simp [RTvertices, RTverticesForest]
  · exact count_paths_eq_reference.2.2 treeG 3 0 _ hb
      (by simp [RTvertices, RTverticesForest]) hlt

theorem bigG_countRef :
    ∀ k, k ≤ 64 → ∀ v, v / 2 = 64 - k → countRef bigG (k + 1) v = some (2 ^ k) := by
  intro k
  induction k with
  | zero =>
    intro _ v hv
    rw [countRef]
    rw [if_pos (show bigG.neighbors v = [] by
      show bigN v = []
      unfold bigN
      rw [if_neg (by omega)])]
    rw [pow_zero]
  | succ k ih =>
    intro hk v hv
    rw [countRef]
    have hn : bigG.neighbors v = [2 * (v / 2) + 2, 2 * (v / 2) + 3] := by
      show bigN v = _
      unfold bigN
      rw [if_pos (by omega)]
    rw [if_neg (by rw [hn]; simp)]
    rw [hn]
    have h2 := ih (by omega) (2 * (v / 2) + 2) (by omega)
    have h3 := ih (by omega) (2 * (v / 2) + 3) (by omega)
    simp only [countRefFold, h2, h3]
    have hval : (2 : Nat) ^ k + (2 ^ k + 0) = 2 ^ (k + 1) := by
      rw [pow_succ]
      omega
    rw [hval]

/-- The reference path count of the doubling DAG's root is exactly
`2 ^ 64`, one count per leaf walk. -/
theorem countRef_bigG_root : countRef bigG 65 0 = some (2 ^ 64) := by
  have h := bigG_countRef 64 (le_refl 64) 0 (by omega)
  exact h

/-- On the doubling DAG the wrapping accumulation overflows exactly to 0. -/
theorem count_paths_bigG_root : count_paths bigG 65 0 = some 0 := by
  obtain ⟨m', hcpi, _⟩ := count_paths_internal_eq_ref bigG 65 [] 0 (2 ^ 64) (by simp)
    countRef_bigG_root
  unfold count_paths
  rw [hcpi, Nat.mod_self]

/-- C5 (counterexample): on the finite acyclic 65-rank doubling DAG the
reference recursion counts `2 ^ 64` leaf walks, but the wrapping `usize`
accumulation in `count_paths` overflows and the memoized function returns
0, not the reference sum. -/
theorem count_paths_overflow :
    countRef bigG 65 0 = some (2 ^ 64) ∧ count_paths bigG 65 0 = some 0 ∧
      (0 : Nat) ≠ 2 ^ 64 :=
  ⟨countRef_bigG_root, count_paths_bigG_root, by omega⟩

/-- C10 (counterexample): the doubling DAG has a finite acyclic neighbor
structure, yet `count_paths` returns 0 — the wrapped accumulated count —
which is not at least 1. -/
theorem count_paths_wraps_to_zero :
    count_paths bigG 65 0 = some 0 ∧ ¬ (1 : Nat) ≤ 0 :=
  ⟨count_paths_bigG_root, by omega⟩

end Counting

/-! ## Claim C3: unreachable goals -/

section Unreachable

variable {V : Type} [DecidableEq V]

theorem safeTo_d_ne {G : GraphI V} {goal : V} :
    ∀ {N : Nat} {v : V}, safeTo G goal N v → G.distance v goal ≠ 0 := by
  intro N v h
  cases N with
  | zero => exact h.1
  | succ n => exact h.1

theorem sizeB_pos (G : GraphI V) (N : Nat) (v : V) : 1 ≤ sizeB G N v := by
  cases N with
  | zero => exact le_refl _
  | succ n => rw [sizeB]; omega

theorem zipWith_replicate_length {α β γ : Type} (f : α → β → γ) (a : α) :
    ∀ ns : List β, List.zipWith f (List.replicate ns.length a) ns = ns.map (f a) := by
  intro ns
  induction ns with
  | nil => rfl
  | cons n ns ih => simp [List.replicate_succ, ih]

theorem forall₂_replicate {α β : Type} {R : α → β → Prop} (a : α) :
    ∀ ns : List β, (∀ n ∈ ns, R a n) → List.Forall₂ R (List.replicate ns.length a) ns := by
  intro ns
  induction ns with
  | nil => intro _; exact List.Forall₂.nil
  | cons n ns ih =>
    intro h
    rw [List.length_cons, List.replicate_succ]
    exact List.Forall₂.cons (h n (List.mem_cons_self n ns))
      (ih fun x hx => h x (List.mem_cons_of_mem n hx))

theorem bfsLoop_unreachable {G : GraphI V} {goal : V} :
    ∀ (M : Nat) (Ns : List Nat) (s : BfsState V),
      List.Forall₂ (fun N v => safeTo G goal N v) Ns s.queue →
      (List.zipWith (fun N v => sizeB G N v) Ns s.queue).sum ≤ M →
      ∃ fuel, bfsLoop G goal fuel s = BfsOut.done s.result := by
  intro M
  induction M with
  | zero =>
    intro Ns s hall hsum
    rcases hq : s.queue with _ | ⟨cur, rest⟩
    · refine ⟨0, ?_⟩
      rw [bfsLoop, hq]
    · exfalso
      rw [hq] at hall hsum
      rcases hall with _ | ⟨hsafe, hall'⟩
      rename_i N Ns'
      rw [List.zipWith_cons_cons, List.sum_cons] at hsum
      have := sizeB_pos G N cur
      omega
  | succ M ih =>
    intro Ns s hall hsum
    rcases hq : s.queue with _ | ⟨cur, rest⟩
    · refine ⟨0, ?_⟩
      rw [bfsLoop, hq]
    · rw [hq] at hall hsum
      rcases hall with _ | ⟨hsafe, hall'⟩
      rename_i N Ns'
      rw [List.zipWith_cons_cons, List.sum_cons] at hsum
      have hd : G.distance cur goal ≠ 0 := safeTo_d_ne hsafe
      have hstep : ∀ fuel, bfsLoop G goal (fuel + 1) s =
          bfsLoop G goal fuel
            { s with queue := rest ++ G.neighbors cur,
                     prev := (G.neighbors cur).foldl (fun m n => minsert m n cur) s.prev } := by
        intro fuel
        obtain ⟨q, p, r⟩ := s
        simp only at hq
        subst hq
        rw [bfsLoop]
        simp [hd]
      set s' : BfsState V :=
        { s with queue := rest ++ G.neighbors cur,
                 prev := (G.neighbors cur).foldl (fun m n => minsert m n cur) s.prev } with hs'
      have hnbr : ∀ n ∈ G.neighbors cur, safeTo G goal (N - 1) n := by
        cases N with
        | zero =>
          intro n hn
          rw [hsafe.2] at hn
          exact absurd hn (List.not_mem_nil n)
        | succ N1 =>
          intro n hn
          simpa using hsafe.2 n hn
      have hall2 : List.Forall₂ (fun N v => safeTo G goal N v)
          (Ns' ++ List.replicate (G.neighbors cur).length (N - 1)) s'.queue := by
        rw [hs']
        exact List.rel_append hall' (forall₂_replicate _ _ hnbr)
      have hsum2 : (List.zipWith (fun N v => sizeB G N v)
          (Ns' ++ List.replicate (G.neighbors cur).length (N - 1)) s'.queue).sum ≤ M := by
        rw [hs']
        simp only
        rw [List.zipWith_append _ _ _ _ _ (List.Forall₂.length_eq hall')]
        rw [List.sum_append, zipWith_replicate_length]
        have hsz : ((G.neighbors cur).map (fun v => sizeB G (N - 1) v)).sum + 1 ≤
            sizeB G N cur := by
          cases N with
          | zero =>
            rw [hsafe.2]
            simp [sizeB]
          | succ N1 =>
            show (List.map (sizeB G N1) (G.neighbors cur)).sum + 1 ≤ sizeB G (N1 + 1) cur
            rw [sizeB]
            omega
        omega
      obtain ⟨fuel, hfuel⟩ := ih _ s' hall2 hsum2
      exact ⟨fuel + 1, by rw [hstep fuel, hfuel]⟩

theorem self_mem_reachList (G : GraphI V) (N : Nat) (v : V) :
    v ∈ reachList G N v := by
  cases N with
  | zero => exact List.mem_singleton.mpr rfl
  | succ n => exact List.mem_cons_self _ _

theorem reachList_d_ne {G : GraphI V} {goal : V} :
    ∀ {N : Nat} {v : V}, safeTo G goal N v →
      ∀ u ∈ reachList G N v, G.distance u goal ≠ 0 := by
  intro N
  induction N with
  | zero =>
    intro v hsafe u hu
    rw [reachList] at hu
    rcases List.mem_singleton.mp hu with rfl
    exact hsafe.1
  | succ n ih =>
    intro v hsafe u hu
    rw [reachList] at hu
    rcases List.mem_cons.mp hu with rfl | hu
    · exact hsafe.1
    · rw [List.mem_flatMap] at hu
      obtain ⟨m, hm, hu⟩ := hu
      exact ih (hsafe.2 m hm) u hu

theorem reachList_closed {G : GraphI V} {goal : V} :
    ∀ {N : Nat} {v : V}, safeTo G goal N v →
      ∀ u ∈ reachList G N v, ∀ n ∈ G.neighbors u, n ∈ reachList G N v := by
  intro N
  induction N with
  | zero =>
    intro v hsafe u hu n hn
    rw [reachList] at hu
    rcases List.mem_singleton.mp hu with rfl
    rw [hsafe.2] at hn
    exact absurd hn (List.not_mem_nil n)
  | succ N1 ih =>
    intro v hsafe u hu n hn
    rw [reachList] at hu
    rcases List.mem_cons.mp hu with rfl | hu
    · rw [reachList]
      refine List.mem_cons_of_mem _ ?_
      rw [List.mem_flatMap]
      exact ⟨n, hn, self_mem_reachList G N1 n⟩
    · rw [List.mem_flatMap] at hu
      obtain ⟨m, hm, hu⟩ := hu
      have := ih (hsafe.2 m hm) u hu n hn
      rw [reachList]
      refine List.mem_cons_of_mem _ ?_
      rw [List.mem_flatMap]
      exact ⟨m, hm, this⟩

theorem filter_length_le {α : Type} {p₁ p₂ : α → Bool}
    (himp : ∀ x, p₂ x = true → p₁ x = true) :
    ∀ U : List α, (U.filter p₂).length ≤ (U.filter p₁).length := by
  intro U
  induction U with
  | nil => exact le_refl _
  | cons u us ih =>
    simp only [List.filter_cons]
    by_cases h2 : p₂ u = true
    · rw [if_pos h2, if_pos (himp u h2)]
      simp only [List.length_cons]
      omega
    · rw [if_neg h2]
      by_cases h1 : p₁ u = true
      · rw [if_pos h1]
        simp only [List.length_cons]
        omega
      · rw [if_neg h1]
        exact ih

theorem filter_length_lt {α : Type} {p₁ p₂ : α → Bool}
    (himp : ∀ x, p₂ x = true → p₁ x = true) :
    ∀ (U : List α) (x : α), x ∈ U → p₁ x = true → p₂ x = false →
      (U.filter p₂).length < (U.filter p₁).length := by
  intro U
  induction U with
  | nil => intro x hx; exact absurd hx (List.not_mem_nil x)
  | cons u us ih =>
    intro x hx h1 h2
    simp only [List.filter_cons]
    rcases List.mem_cons.mp hx with rfl | hx
    · rw [if_pos h1, if_neg (by simp [h2])]
      simp only [List.length_cons]
      exact Nat.lt_succ_of_le (filter_length_le himp us)
    · by_cases hu2 : p₂ u = true
      · rw [if_pos hu2, if_pos (himp u hu2)]
        simp only [List.length_cons]
        have := ih x hx h1 h2
        omega
      · rw [if_neg hu2]
        by_cases hu1 : p₁ u = true
        · rw [if_pos hu1]
          simp only [List.length_cons]
          have := ih x hx h1 h2
          omega
        · rw [if_neg hu1]
          exact ih x hx h1 h2

theorem stale_perm_count {s : AState V} {e : Nat × V} {rest : List (Nat × V)}
    (hpop : popMin s.openList = some (e, rest)) (he : e.2 ∈ s.closed) :
    staleCount s = (rest.filter (fun x => decide (x.2 ∈ s.closed))).length + 1 := by
  unfold staleCount
  have hperm := popMin_perm hpop
  have := hperm.filter (fun x => decide (x.2 ∈ s.closed))
  rw [this.length_eq]
  rw [List.filter_cons]
  rw [if_pos (by simpa using he)]
  simp [Nat.add_comm]

theorem astarLoop_unreachable {G : GraphI V} {goal : V} {U : List V}
    (hUgoal : ∀ u ∈ U, G.distance u goal ≠ 0)
    (hUclosed : ∀ u ∈ U, ∀ n ∈ G.neighbors u, n ∈ U) :
    ∀ (c st : Nat) (s : AState V),
      (∀ e ∈ s.openList, e.2 ∈ U) →
      (∀ e ∈ s.openList, e.2 ∈ mkeys s.g_score) →
      (U.filter (fun v => decide (v ∉ s.closed))).length ≤ c →
      staleCount s ≤ st →
      ∃ fuel, astarLoop G goal fuel s = AOut.noPath := by
  intro c
  induction c with
  | zero =>
    intro st
    induction st with
    | zero =>
      intro s hU hg hc hst
      rcases hpop : popMin s.openList with _ | er
      · refine ⟨1, ?_⟩
        rw [astarLoop, hpop]
      · exfalso
        obtain ⟨⟨sc, cur⟩, rest⟩ := er
        have hcur : cur ∈ U := hU _ (popMin_mem hpop)
        by_cases hcl : cur ∈ s.closed
        · have := stale_perm_count hpop hcl
          omega
        · have : (U.filter (fun v => decide (v ∉ s.closed))).length > 0 := by
            have hmem : cur ∈ U.filter (fun v => decide (v ∉ s.closed)) :=
              List.mem_filter.mpr ⟨hcur, by simpa using hcl⟩
            exact List.length_pos.mpr (List.ne_nil_of_mem hmem)
          omega
    | succ st ihst =>
      intro s hU hg hc hst
      rcases hpop : popMin s.openList with _ | er
      · refine ⟨1, ?_⟩
        rw [astarLoop, hpop]
      · obtain ⟨⟨sc, cur⟩, rest⟩ := er
        have hcur : cur ∈ U := hU _ (popMin_mem hpop)
        by_cases hcl : cur ∈ s.closed
        · -- stale pop: closed set unchanged, stale count drops by one
          have hd : G.distance cur goal ≠ 0 := hUgoal cur hcur
          have hcurg : cur ∈ mkeys s.g_score := hg _ (popMin_mem hpop)
          obtain ⟨s', hfold, hkeys, hop⟩ :=
            @foldRelax_some _ _ G goal cur
              ((G.neighbors cur).filter (fun n => decide (n ∉ insertSet cur s.closed)))
              { s with openList := rest, closed := insertSet cur s.closed } hcurg
          have hstep : astarStep G goal cur rest s = some s' := hfold
          obtain ⟨hc', ps, hop', hps⟩ := astarStep_open_closed hstep
          have hcleq : insertSet cur s.closed = s.closed := insertSet_eq_of_mem hcl
          have hU' : ∀ e ∈ s'.openList, e.2 ∈ U := by
            intro e he
            rw [hop'] at he
            rcases List.mem_append.mp he with he | he
            · exact hU e (popMin_mem_rest hpop he)
            · exact hUclosed cur hcur e.2 (hps e he).1
          have hg' : ∀ e ∈ s'.openList, e.2 ∈ mkeys s'.g_score := by
            intro e he
            rcases hop e he with he2 | he2
            · simp only at he2
              exact hkeys e.2 (hg e (popMin_mem_rest hpop he2))
            · exact he2
          have hcM : (U.filter (fun v => decide (v ∉ s'.closed))).length ≤ 0 := by
            rw [hc', hcleq]
            exact hc
          have hstale : staleCount s' ≤ st := by
            have heq := stale_perm_count hpop hcl
            unfold staleCount
            rw [hop', List.filter_append, List.length_append]
            have hps0 : (ps.filter (fun x => decide (x.2 ∈ s'.closed))).length = 0 := by
              rw [List.length_eq_zero, List.filter_eq_nil_iff]
              intro x hx
              simpa using (hps x hx).2
            rw [hc', hcleq] at hps0 ⊢
            unfold staleCount at heq hst
            omega
          obtain ⟨fuel, hfuel⟩ := ihst s' hU' hg' hcM hstale
          refine ⟨fuel + 1, ?_⟩
          rw [astarLoop]
          simp only [hpop]
          rw [if_neg hd]
          simp only [hstep]
          exact hfuel
        · exfalso
          have : (U.filter (fun v => decide (v ∉ s.closed))).length > 0 := by
            have hmem : cur ∈ U.filter (fun v => decide (v ∉ s.closed)) :=
              List.mem_filter.mpr ⟨hcur, by simpa using hcl⟩
            exact List.length_pos.mpr (List.ne_nil_of_mem hmem)
          omega
  | succ c ihc =>
    intro st
    induction st with
    | zero =>
      intro s hU hg hc hst
      rcases hpop : popMin s.openList with _ | er
      · refine ⟨1, ?_⟩
        rw [astarLoop, hpop]
      · obtain ⟨⟨sc, cur⟩, rest⟩ := er
        have hcur : cur ∈ U := hU _ (popMin_mem hpop)
        have hd : G.distance cur goal ≠ 0 := hUgoal cur hcur
        have hcurg : cur ∈ mkeys s.g_score := hg _ (popMin_mem hpop)
        obtain ⟨s', hfold, hkeys, hop⟩ :=
          @foldRelax_some _ _ G goal cur
            ((G.neighbors cur).filter (fun n => decide (n ∉ insertSet cur s.closed)))
            { s with openList := rest, closed := insertSet cur s.closed } hcurg
        have hstep : astarStep G goal cur rest s = some s' := hfold
        obtain ⟨hc', ps, hop', hps⟩ := astarStep_open_closed hstep
        have hU' : ∀ e ∈ s'.openList, e.2 ∈ U := by
          intro e he
          rw [hop'] at he
          rcases List.mem_append.mp he with he | he
          · exact hU e (popMin_mem_rest hpop he)
          · exact hUclosed cur hcur e.2 (hps e he).1
        have hg' : ∀ e ∈ s'.openList, e.2 ∈ mkeys s'.g_score := by
          intro e he
          rcases hop e he with he2 | he2
          · simp only at he2
            exact hkeys e.2 (hg e (popMin_mem_rest hpop he2))
          · exact he2
        by_cases hcl : cur ∈ s.closed
        · exfalso
          have := stale_perm_count hpop hcl
          omega
        · -- closing pop: the uncovered part of U shrinks
          have hcM : (U.filter (fun v => decide (v ∉ s'.closed))).length ≤ c := by
            rw [hc', insertSet_eq_of_not_mem hcl]
            have hlt := @filter_length_lt _
              (fun v => decide (v ∉ s.closed))
              (fun v => decide (v ∉ cur :: s.closed))
              (fun x hx => by
                simp only [decide_eq_true_eq] at hx ⊢
                intro hmem
                exact hx (List.mem_cons_of_mem cur hmem))
              U cur hcur (by simpa using hcl) (by simp)
            omega
          obtain ⟨fuel, hfuel⟩ := ihc (staleCount s') s' hU' hg' hcM (le_refl _)
          refine ⟨fuel + 1, ?_⟩
          rw [astarLoop]
          simp only [hpop]
          rw [if_neg hd]
          simp only [hstep]
          exact hfuel
    | succ st ihst =>
      intro s hU hg hc hst
      rcases hpop : popMin s.openList with _ | er
      · refine ⟨1, ?_⟩
        rw [astarLoop, hpop]
      · obtain ⟨⟨sc, cur⟩, rest⟩ := er
        have hcur : cur ∈ U := hU _ (popMin_mem hpop)
        have hd : G.distance cur goal ≠ 0 := hUgoal cur hcur
        have hcurg : cur ∈ mkeys s.g_score := hg _ (popMin_mem hpop)
        obtain ⟨s', hfold, hkeys, hop⟩ :=
          @foldRelax_some _ _ G goal cur
            ((G.neighbors cur).filter (fun n => decide (n ∉ insertSet cur s.closed)))
            { s with openList := rest, closed := insertSet cur s.closed } hcurg
        have hstep : astarStep G goal cur rest s = some s' := hfold
        obtain ⟨hc', ps, hop', hps⟩ := astarStep_open_closed hstep
        have hU' : ∀ e ∈ s'.openList, e.2 ∈ U := by
          intro e he
          rw [hop'] at he
          rcases List.mem_append.mp he with he | he
          · exact hU e (popMin_mem_rest hpop he)
          · exact hUclosed cur hcur e.2 (hps e he).1
        have hg' : ∀ e ∈ s'.openList, e.2 ∈ mkeys s'.g_score := by
          intro e he
          rcases hop e he with he2 | he2
          · simp only at he2
            exact hkeys e.2 (hg e (popMin_mem_rest hpop he2))
          · exact he2
        by_cases hcl : cur ∈ s.closed
        · -- stale pop: closed unchanged, stale count drops
          have hcleq : insertSet cur s.closed = s.closed := insertSet_eq_of_mem hcl
          have hcM : (U.filter (fun v => decide (v ∉ s'.closed))).length ≤ c + 1 := by
            rw [hc', hcleq]
            exact hc
          have hstale : staleCount s' ≤ st := by
            have heq := stale_perm_count hpop hcl
            unfold staleCount
            rw [hop', List.filter_append, List.length_append]
            have hps0 : (ps.filter (fun x => decide (x.2 ∈ s'.closed))).length = 0 := by
              rw [List.length_eq_zero, List.filter_eq_nil_iff]
              intro x hx
              simpa using (hps x hx).2
            rw [hc', hcleq] at hps0 ⊢
            unfold staleCount at heq hst
            omega
          obtain ⟨fuel, hfuel⟩ := ihst s' hU' hg' hcM hstale
          refine ⟨fuel + 1, ?_⟩
          rw [astarLoop]
          simp only [hpop]
          rw [if_neg hd]
          simp only [hstep]
          exact hfuel
        · -- closing pop
          have hcM : (U.filter (fun v => decide (v ∉ s'.closed))).length ≤ c := by
            rw [hc', insertSet_eq_of_not_mem hcl]
            have hlt := @filter_length_lt _
              (fun v => decide (v ∉ s.closed))
              (fun v => decide (v ∉ cur :: s.closed))
              (fun x hx => by
                simp only [decide_eq_true_eq] at hx ⊢
                intro hmem
                exact hx (List.mem_cons_of_mem cur hmem))
              U cur hcur (by simpa using hcl) (by simp)
            omega
          obtain ⟨fuel, hfuel⟩ := ihc (staleCount s') s' hU' hg' hcM (le_refl _)
          refine ⟨fuel + 1, ?_⟩
          rw [astarLoop]
          simp only [hpop]
          rw [if_neg hd]
          simp only [hstep]
          exact hfuel

/-- C3 (theorem): when the expansion from `start` is finite and contains
no vertex at distance 0 to `goal` (the goal is unreachable within a finite
expansion), `astar_search` terminates by exhausting the frontier and
returns the absent value rather than failing, and `bfs_search_all`
terminates and returns the empty sequence of paths. -/
theorem search_unreachable_absent :
    ∀ {V : Type} [DecidableEq V] (G : GraphI V) (start goal : V) (N : Nat),
      safeTo G goal N start →
      (∃ fuel, astar_search G fuel start goal = AOut.noPath) ∧
      (∃ fuel, bfs_search_all G fuel start goal = BfsOut.done []) := by
  intro V _ G start goal N hsafe
  constructor
  · have hU : ∀ e ∈ (astarInit start).openList, e.2 ∈ reachList G N start := by
      intro e he
      rcases List.mem_singleton.mp he with rfl
      exact self_mem_reachList G N start
    have hg : ∀ e ∈ (astarInit start).openList, e.2 ∈ mkeys (astarInit start).g_score := by
      intro e he
      rcases List.mem_singleton.mp he with rfl
      simp [astarInit, mkeys, minsert]
    obtain ⟨fuel, hfuel⟩ := astarLoop_unreachable (reachList_d_ne hsafe)
      (reachList_closed hsafe)
      ((reachList G N start).filter
        (fun v => decide (v ∉ (astarInit start).closed))).length
      (staleCount (astarInit start)) (astarInit start) hU hg (le_refl _) (le_refl _)
    exact ⟨fuel, hfuel⟩
  · obtain ⟨fuel, hfuel⟩ := bfsLoop_unreachable (sizeB G N start) [N]
      { queue := [start], prev := [], result := [] }
      (List.Forall₂.cons hsafe List.Forall₂.nil) (by simp)
    exact ⟨fuel, hfuel⟩

/-- C3 (witness): the theorem applied to the isolated-vertex graph with
start 0 and absent goal 9: the depth-0 expansion is goal-free. -/
theorem search_unreachable_absent_witness :
    safeTo leafG 9 0 0 ∧
    (∃ fuel, astar_search leafG fuel 0 9 = AOut.noPath) ∧
    (∃ fuel, bfs_search_all leafG fuel 0 9 = BfsOut.done []) := by
  have hsafe : safeTo leafG 9 0 0 := ⟨by decide, rfl⟩
  obtain ⟨h1, h2⟩ := search_unreachable_absent leafG 0 9 0 hsafe
  exact ⟨hsafe, h1, h2⟩

end Unreachable

/-! ## Claim C1: A* on the obstacle-free grid

The development fixes `start` and `goal`, writes `k` for their Manhattan
distance, `π j` for the monotone staircase path from `start` to `goal`,
and follows the textbook argument specialized to the exact heuristic:
every frontier entry scores at least `k`, some entry on the staircase
scores exactly `k`, hence every pre-goal pop scores exactly `k`, sits on
a monotone shortest path and carries an optimal `g_score`; the
`came_from` chain from the goal then has length exactly `k`. -/

section GridLemmas

theorem gdist_self (a : Int × Int) : gdist a a = 0 := by
  unfold gdist
  omega

theorem gdist_eq_zero_iff {a b : Int × Int} : gdist a b = 0 ↔ a = b := by
  unfold gdist
  constructor
  · intro h
    have hx : a.1 = b.1 := by omega
    have hy : a.2 = b.2 := by omega
    exact Prod.ext hx hy
  · rintro rfl
    omega

theorem gdist_comm (a b : Int × Int) : gdist a b = gdist b a := by
  unfold gdist
  omega

theorem gdist_triangle (a b c : Int × Int) : gdist a c ≤ gdist a b + gdist b c := by
  unfold gdist
  omega

theorem mem_gridNeigh4 {v n : Int × Int} :
    n ∈ gridNeigh4 v ↔
      n = (v.1 - 1, v.2) ∨ n = (v.1, v.2 + 1) ∨ n = (v.1 + 1, v.2) ∨
        n = (v.1, v.2 - 1) := by
  unfold gridNeigh4
  simp

theorem gdist_neighbor {v n : Int × Int} (h : n ∈ gridNeigh4 v) :
    gdist v n = 1 := by
  rcases mem_gridNeigh4.mp h with rfl | rfl | rfl | rfl <;>
    (unfold gdist; simp; try omega)

theorem not_self_neighbor (v : Int × Int) : v ∉ gridNeigh4 v := by
  intro h
  have := gdist_neighbor h
  rw [gdist_self] at this
  exact Nat.noConfusion this

theorem neighbor_symm {v n : Int × Int} (h : n ∈ gridNeigh4 v) :
    v ∈ gridNeigh4 n := by
  rcases mem_gridNeigh4.mp h with rfl | rfl | rfl | rfl <;>
    (rw [mem_gridNeigh4]; simp; try omega)

theorem gdist_neighbor_le {v n x : Int × Int} (h : n ∈ gridNeigh4 v) :
    gdist n x ≤ 1 + gdist v x ∧ gdist v x ≤ 1 + gdist n x := by
  have h1 : gdist v n = 1 := gdist_neighbor h
  have h2 : gdist n v = 1 := by rw [gdist_comm]; exact h1
  constructor
  · have := gdist_triangle n v x
    omega
  · have := gdist_triangle v n x
    omega

theorem monotone_neighbor_toward {v g : Int × Int} (h : gdist v g ≠ 0) :
    ∃ n ∈ gridNeigh4 v, gdist n g + 1 = gdist v g := by
  unfold gdist at h ⊢
  rcases lt_trichotomy v.1 g.1 with hx | hx | hx
  · refine ⟨(v.1 + 1, v.2), mem_gridNeigh4.mpr (by tauto), ?_⟩
    simp
    omega
  · rcases lt_trichotomy v.2 g.2 with hy | hy | hy
    · refine ⟨(v.1, v.2 + 1), mem_gridNeigh4.mpr (by tauto), ?_⟩
      simp
      omega
    · exfalso
      apply h
      omega
    · refine ⟨(v.1, v.2 - 1), mem_gridNeigh4.mpr (by tauto), ?_⟩
      simp
      omega
  · refine ⟨(v.1 - 1, v.2), mem_gridNeigh4.mpr (by tauto), ?_⟩
    simp
    omega

theorem gridPath_zero (start goal : Int × Int) : gridPath start goal 0 = start := by
  unfold gridPath
  simp

theorem gridPath_x_phase (start goal : Int × Int) {j : Nat}
    (h : j ≤ (goal.1 - start.1).natAbs) :
    gridPath start goal j = (start.1 + (goal.1 - start.1).sign * (j : Int), start.2) := by
  unfold gridPath
  rw [if_pos h]

theorem gridPath_y_phase (start goal : Int × Int) {j : Nat}
    (h : ¬ j ≤ (goal.1 - start.1).natAbs) :
    gridPath start goal j =
      (goal.1, start.2 + (goal.2 - start.2).sign *
        ((j : Int) - ((goal.1 - start.1).natAbs : Int))) := by
  unfold gridPath
  rw [if_neg h]

theorem sign_cases (d : Int) :
    (0 < d ∧ d.sign = 1) ∨ (d = 0 ∧ d.sign = 0) ∨ (d < 0 ∧ d.sign = -1) := by
  rcases lt_trichotomy 0 d with h | h | h
  · exact Or.inl ⟨h, Int.sign_eq_one_of_pos h⟩
  · exact Or.inr (Or.inl ⟨h.symm, by rw [← h]; rfl⟩)
  · exact Or.inr (Or.inr ⟨h, Int.sign_eq_neg_one_of_neg h⟩)

theorem gridPath_d_start (start goal : Int × Int) {j : Nat}
    (h : j ≤ gdist start goal) : gdist start (gridPath start goal j) = j := by
  unfold gdist at h ⊢
  by_cases hx : j ≤ (goal.1 - start.1).natAbs
  · rw [gridPath_x_phase start goal hx]
    dsimp only
    rcases sign_cases (goal.1 - start.1) with ⟨h1, h2⟩ | ⟨h1, h2⟩ | ⟨h1, h2⟩ <;>
      rw [h2] <;> omega
  · rw [gridPath_y_phase start goal hx]
    dsimp only
    rcases sign_cases (goal.2 - start.2) with ⟨h1, h2⟩ | ⟨h1, h2⟩ | ⟨h1, h2⟩ <;>
      rw [h2] <;> omega

theorem gridPath_d_goal (start goal : Int × Int) {j : Nat}
    (h : j ≤ gdist start goal) :
    gdist (gridPath start goal j) goal + j = gdist start goal := by
  unfold gdist at h ⊢
  by_cases hx : j ≤ (goal.1 - start.1).natAbs
  · rw [gridPath_x_phase start goal hx]
    dsimp only
    rcases sign_cases (goal.1 - start.1) with ⟨h1, h2⟩ | ⟨h1, h2⟩ | ⟨h1, h2⟩ <;>
      rw [h2] <;> omega
  · rw [gridPath_y_phase start goal hx]
    dsimp only
    rcases sign_cases (goal.2 - start.2) with ⟨h1, h2⟩ | ⟨h1, h2⟩ | ⟨h1, h2⟩ <;>
      rw [h2] <;> omega

theorem gridPath_last (start goal : Int × Int) :
    gridPath start goal (gdist start goal) = goal := by
  have h1 := gridPath_d_goal start goal (le_refl (gdist start goal))
  have h2 : gdist (gridPath start goal (gdist start goal)) goal = 0 := by omega
  exact gdist_eq_zero_iff.mp h2

theorem gridPath_step (start goal : Int × Int) {j : Nat}
    (h : j < gdist start goal) :
    gridPath start goal (j + 1) ∈ gridNeigh4 (gridPath start goal j) := by
  rw [mem_gridNeigh4]
  unfold gdist at h
  by_cases hx1 : j + 1 ≤ (goal.1 - start.1).natAbs
  · rw [gridPath_x_phase start goal hx1, gridPath_x_phase start goal (by omega)]
    dsimp only
    rcases sign_cases (goal.1 - start.1) with ⟨h1, h2⟩ | ⟨h1, h2⟩ | ⟨h1, h2⟩
    · refine Or.inr (Or.inr (Or.inl ?_))
      rw [h2]
      rw [Prod.mk.injEq]
      constructor <;> omega
    · exfalso
      omega
    · refine Or.inl ?_
      rw [h2]
      rw [Prod.mk.injEq]
      constructor <;> omega
  · by_cases hx0 : j ≤ (goal.1 - start.1).natAbs
    · rw [gridPath_x_phase start goal hx0, gridPath_y_phase start goal hx1]
      dsimp only
      have hj : ((j : Nat) : Int) = (((goal.1 - start.1).natAbs : Nat) : Int) := by
        omega
      have hxeq : start.1 + (goal.1 - start.1).sign *
          (((goal.1 - start.1).natAbs : Nat) : Int) = goal.1 := by
        rcases sign_cases (goal.1 - start.1) with ⟨a1, a2⟩ | ⟨a1, a2⟩ | ⟨a1, a2⟩ <;>
          rw [a2] <;> omega
      rcases sign_cases (goal.2 - start.2) with ⟨h1, h2⟩ | ⟨h1, h2⟩ | ⟨h1, h2⟩
      · refine Or.inr (Or.inl ?_)
        rw [h2, hj, hxeq]
        rw [Prod.mk.injEq]
        constructor <;> omega
      · exfalso
        omega
      · refine Or.inr (Or.inr (Or.inr ?_))
        rw [h2, hj, hxeq]
        rw [Prod.mk.injEq]
        constructor <;> omega
    · rw [gridPath_y_phase start goal hx0, gridPath_y_phase start goal hx1]
      dsimp only
      rcases sign_cases (goal.2 - start.2) with ⟨h1, h2⟩ | ⟨h1, h2⟩ | ⟨h1, h2⟩
      · refine Or.inr (Or.inl ?_)
        rw [h2]
        rw [Prod.mk.injEq]
        constructor <;> omega
      · exfalso
        omega
      · refine Or.inr (Or.inr (Or.inr ?_))
        rw [h2]
        rw [Prod.mk.injEq]
        constructor <;> omega

theorem mem_corridor {start goal v : Int × Int}
    (h : gdist start v + gdist v goal = gdist start goal) :
    v ∈ corridor start goal := by
  unfold gdist at h
  unfold corridor
  have h1 : (v.1 - min start.1 goal.1).toNat < (goal.1 - start.1).natAbs + 1 := by
    omega
  have h2 : (v.2 - min start.2 goal.2).toNat < (goal.2 - start.2).natAbs + 1 := by
    omega
  have h3 : (min start.1 goal.1 + Int.ofNat (v.1 - min start.1 goal.1).toNat,
      min start.2 goal.2 + Int.ofNat (v.2 - min start.2 goal.2).toNat) = v := by
    rw [Prod.ext_iff]
    constructor <;> dsimp only <;> (simp only [Int.ofNat_eq_coe]; omega)
  exact List.mem_flatMap.mpr ⟨(v.1 - min start.1 goal.1).toNat, List.mem_range.mpr h1,
    List.mem_map.mpr ⟨(v.2 - min start.2 goal.2).toNat, List.mem_range.mpr h2, h3⟩⟩

end GridLemmas

section AstarGrid

theorem gridG_distance : gridG.distance = gdist := rfl

theorem gridG_neighbors : gridG.neighbors = gridNeigh4 := rfl

theorem RelaxInv_after_update
    {start goal cur n : Int × Int} {gc : Nat} {s : AState (Int × Int)}
    (hinv : RelaxInv start goal s)
    (hgcd : gc = gdist start cur)
    (hbound : gc + 2 ≤ usizeMAX)
    (hgcur : mlookup s.g_score cur = some gc)
    (hstart_cl : start ∈ s.closed) (hcur_cl : cur ∈ s.closed)
    (hn : n ∈ gridNeigh4 cur) (hncl : n ∉ s.closed)
    {g' : List ((Int × Int) × Nat)}
    (hpairs : ∀ w gw, (w, gw) ∈ g' →
      (w = n ∧ gw = gc + 1) ∨ ((w, gw) ∈ s.g_score ∧ w ≠ n))
    (hlookn : mlookup g' n = some (gc + 1))
    (hlookne : ∀ w, w ≠ n → mlookup g' w = mlookup s.g_score w)
    (hnodup : (mkeys g').Nodup)
    (himp : ∀ gw0, mlookup s.g_score n = some gw0 → gc + 1 ≤ gw0)
    (f' : List ((Int × Int) × Nat)) :
    RelaxInv start goal
      { openList := s.openList ++ [(gc + 1 + gdist n goal, n)],
        closed := s.closed,
        came_from := minsert s.came_from n cur,
        g_score := g',
        f_score := f' } := by
  have hns : n ≠ start := fun h => hncl (h ▸ hstart_cl)
  have hnc : n ≠ cur := fun h => hncl (h ▸ hcur_cl)
  have hdn : gdist start n ≤ gc + 1 := by
    have h1 : gdist cur n = 1 := gdist_neighbor hn
    have h2 := gdist_triangle start cur n
    omega
  constructor
  · -- g_start
    rw [hlookne start (Ne.symm hns)]
    exact hinv.g_start
  · exact hnodup
  · exact mkeys_minsert_nodup _ _ hinv.cf_nodup
  · -- g_lower
    intro w gw hw
    rcases hpairs w gw hw with ⟨rfl, rfl⟩ | ⟨hw2, _⟩
    · exact hdn
    · exact hinv.g_lower w gw hw2
  · -- open_g
    intro e he
    rcases List.mem_append.mp he with he | he
    · obtain ⟨gw, hgw, hle⟩ := hinv.open_g e he
      by_cases hwn : e.2 = n
      · rw [hwn] at hgw hle ⊢
        have := himp gw hgw
        exact ⟨gc + 1, hlookn, by omega⟩
      · rw [hlookne e.2 hwn]
        exact ⟨gw, hgw, hle⟩
    · rcases List.mem_singleton.mp he with rfl
      exact ⟨gc + 1, hlookn, le_refl _⟩
  · -- closed_g
    intro w hw
    have hwn : w ≠ n := fun h => hncl (h ▸ hw)
    rw [hlookne w hwn]
    exact hinv.closed_g w hw
  · -- cf_graph
    intro w u hw
    rcases mem_minsert_weak hw with ⟨rfl, rfl⟩ | hw2
    · exact hn
    · exact hinv.cf_graph w u hw2
  · -- cf_g
    intro w u hw
    rcases mem_minsert_of_nodup hinv.cf_nodup hw with ⟨he1, he2⟩ | ⟨hw2, hwn⟩
    · have he1s := he1.symm
      have he2s := he2.symm
      subst he1s
      subst he2s
      refine ⟨gc + 1, gc, hlookn, ?_, le_refl _, ?_⟩
      · rw [hlookne cur (Ne.symm hnc)]
        exact hgcur
      · by_cases hcs : cur = start
        · exact Or.inl hcs
        · right
          have hcin : cur ∈ mkeys s.came_from :=
            hinv.cf_total cur gc (mem_of_mlookup_eq_some hgcur) hcs (by omega)
          exact (mem_mkeys_minsert _ n cur cur).mpr (Or.inr hcin)
    · obtain ⟨gw, gu, hgw, hgu, hlt, hreach⟩ := hinv.cf_g w u hw2
      refine ⟨gw, ?_⟩
      rw [hlookne w hwn]
      by_cases hun : u = n
      · have huns := hun.symm
        subst huns
        have := himp gu hgu
        refine ⟨gc + 1, hgw, hlookn, by omega, ?_⟩
        rcases hreach with h1 | h1
        · exact Or.inl h1
        · exact Or.inr ((mem_mkeys_minsert _ n cur n).mpr (Or.inr h1))
      · rw [hlookne u hun]
        refine ⟨gu, hgw, hgu, hlt, ?_⟩
        rcases hreach with h1 | h1
        · exact Or.inl h1
        · exact Or.inr ((mem_mkeys_minsert _ n cur u).mpr (Or.inr h1))
  · -- cf_start
    intro hst
    rcases (mem_mkeys_minsert _ n cur start).mp hst with h1 | h1
    · exact hns h1.symm
    · exact hinv.cf_start h1
  · -- cf_total
    intro w gw hw hws hwmax
    rcases hpairs w gw hw with ⟨he1, _⟩ | ⟨hw2, hwn⟩
    · exact (mem_mkeys_minsert _ n cur w).mpr (Or.inl he1)
    · exact (mem_mkeys_minsert _ n cur w).mpr
        (Or.inr (hinv.cf_total w gw hw2 hws hwmax))

theorem relax_grid
    {start goal cur n : Int × Int} {gc : Nat} {s : AState (Int × Int)}
    (hinv : RelaxInv start goal s)
    (hgcd : gc = gdist start cur)
    (hbound : gc + 2 ≤ usizeMAX)
    (hgcur : mlookup s.g_score cur = some gc)
    (hstart_cl : start ∈ s.closed) (hcur_cl : cur ∈ s.closed)
    (hn : n ∈ gridNeigh4 cur) (hncl : n ∉ s.closed) :
    ∃ s', relaxNeighbor gridG goal cur s n = some s' ∧
      s'.openList = s.openList ++ [(gc + 1 + gdist n goal, n)] ∧
      s'.closed = s.closed ∧
      RelaxInv start goal s' := by
  by_cases hmem : n ∈ mkeys s.g_score
  · have hsome := (mlookup_isSome_iff s.g_score n).mpr hmem
    rcases hg0 : mlookup s.g_score n with _ | g0
    · rw [hg0] at hsome
      exact absurd hsome (by simp)
    · by_cases himp0 : gc + 1 < g0
      · refine ⟨⟨s.openList ++ [(gc + 1 + gdist n goal, n)], s.closed,
          minsert s.came_from n cur, minsert s.g_score n (gc + 1),
          minsert s.f_score n (gc + 1 + gdist n goal)⟩, ?_, rfl, rfl, ?_⟩
        · unfold relaxNeighbor
          rw [hgcur]
          dsimp only
          rw [hg0]
          simp only [Option.getD_some]
          rw [if_pos hmem, if_pos himp0]
          rfl
        · exact RelaxInv_after_update hinv hgcd hbound hgcur hstart_cl hcur_cl hn hncl
            (fun w gw hw => mem_minsert_of_nodup hinv.g_nodup hw)
            (mlookup_minsert_self _ _ _)
            (fun w hwn => mlookup_minsert_ne _ _ _ _ hwn)
            (mkeys_minsert_nodup _ _ hinv.g_nodup)
            (fun gw0 hgw0 => by
              rw [hg0] at hgw0
              injection hgw0 with hh
              omega)
            _
      · refine ⟨⟨s.openList ++ [(gc + 1 + gdist n goal, n)], s.closed,
          s.came_from, s.g_score, s.f_score⟩, ?_, rfl, rfl, ?_⟩
        · unfold relaxNeighbor
          rw [hgcur]
          dsimp only
          rw [hg0]
          simp only [Option.getD_some]
          rw [if_pos hmem, if_neg himp0]
          rfl
        · constructor
          · exact hinv.g_start
          · exact hinv.g_nodup
          · exact hinv.cf_nodup
          · exact hinv.g_lower
          · intro e he
            rcases List.mem_append.mp he with he | he
            · exact hinv.open_g e he
            · rcases List.mem_singleton.mp he with rfl
              exact ⟨g0, hg0, by dsimp only; omega⟩
          · exact hinv.closed_g
          · exact hinv.cf_graph
          · exact hinv.cf_g
          · exact hinv.cf_start
          · exact hinv.cf_total
  · have hg0 : mlookup s.g_score n = none := (mlookup_eq_none_iff _ _).mpr hmem
    have hcond : gc + 1 < usizeMAX := by
      unfold usizeMAX at hbound ⊢
      omega
    refine ⟨⟨s.openList ++ [(gc + 1 + gdist n goal, n)], s.closed,
        minsert s.came_from n cur,
        minsert (minsert s.g_score n usizeMAX) n (gc + 1),
        minsert s.f_score n (gc + 1 + gdist n goal)⟩, ?_, rfl, rfl, ?_⟩
    · unfold relaxNeighbor
      rw [hgcur]
      dsimp only
      rw [hg0]
      simp only [Option.getD_none]
      rw [if_neg hmem, if_pos hcond]
      rfl
    · have hnodup1 : (mkeys (minsert s.g_score n usizeMAX)).Nodup :=
        mkeys_minsert_nodup _ _ hinv.g_nodup
      exact RelaxInv_after_update hinv hgcd hbound hgcur hstart_cl hcur_cl hn hncl
        (fun w gw hw => by
          rcases mem_minsert_of_nodup hnodup1 hw with ⟨he1, he2⟩ | ⟨hw2, hwn⟩
          · exact Or.inl ⟨he1, he2⟩
          · rcases mem_minsert_weak hw2 with ⟨he1, _⟩ | hw3
            · exact absurd he1 hwn
            · exact Or.inr ⟨hw3, hwn⟩)
        (mlookup_minsert_self _ _ _)
        (fun w hwn => by
          rw [mlookup_minsert_ne _ _ _ _ hwn, mlookup_minsert_ne _ _ _ _ hwn])
        (mkeys_minsert_nodup _ _ hnodup1)
        (fun gw0 hgw0 => by
          rw [hg0] at hgw0
          exact Option.noConfusion hgw0)
        _

theorem foldRelax_grid
    {start goal cur : Int × Int} :
    ∀ (ns : List (Int × Int)) (s : AState (Int × Int)),
      RelaxInv start goal s →
      mlookup s.g_score cur = some (gdist start cur) →
      gdist start cur + 2 ≤ usizeMAX →
      start ∈ s.closed → cur ∈ s.closed →
      (∀ n ∈ ns, n ∈ gridNeigh4 cur ∧ n ∉ s.closed) →
      ∃ s', ns.foldlM (relaxNeighbor gridG goal cur) s = some s' ∧
        s'.openList = s.openList ++
          ns.map (fun n => (gdist start cur + 1 + gdist n goal, n)) ∧
        s'.closed = s.closed ∧
        RelaxInv start goal s' := by
  intro ns
  induction ns with
  | nil =>
    intro s hinv hg _ _ _ _
    exact ⟨s, rfl, by simp, rfl, hinv⟩
  | cons n ns ih =>
    intro s hinv hg hbound hstart hcur hns
    obtain ⟨s1, hr, hop1, hcl1, hinv1⟩ :=
      relax_grid hinv rfl hbound hg hstart hcur
        (hns n (List.mem_cons_self n ns)).1 (hns n (List.mem_cons_self n ns)).2
    have hcur1 : cur ∈ s1.closed := by rw [hcl1]; exact hcur
    have hstart1 : start ∈ s1.closed := by rw [hcl1]; exact hstart
    have hg1 : mlookup s1.g_score cur = some (gdist start cur) :=
      hinv1.closed_g cur hcur1
    obtain ⟨s2, hfold, hop2, hcl2, hinv2⟩ := ih s1 hinv1 hg1 hbound hstart1 hcur1
      (fun m hm => ⟨(hns m (List.mem_cons_of_mem n hm)).1,
        by rw [hcl1]; exact (hns m (List.mem_cons_of_mem n hm)).2⟩)
    refine ⟨s2, ?_, ?_, hcl2.trans hcl1, hinv2⟩
    · rw [List.foldlM_cons, hr]
      simp only [Option.bind_eq_bind, Option.some_bind]
      exact hfold
    · rw [hop2, hop1, List.append_assoc]
      rfl

theorem mem_stepNs {V : Type} [DecidableEq V] {G : GraphI V} {cur n : V}
    {closed : List V} :
    n ∈ stepNs G cur closed ↔ n ∈ G.neighbors cur ∧ n ∉ insertSet cur closed := by
  unfold stepNs
  rw [List.mem_filter]
  simp

theorem astarStep_grid
    {start goal cur : Int × Int} {rest : List (Nat × (Int × Int))}
    {s : AState (Int × Int)}
    (hbound : gdist start goal + 2 ≤ usizeMAX)
    (hinv : RelaxInv start goal s)
    (hcor : gdist start cur + gdist cur goal = gdist start goal)
    (hg : mlookup s.g_score cur = some (gdist start cur))
    (hstart : start ∈ insertSet cur s.closed)
    (hgoal : goal ∉ s.closed) (hcg : cur ≠ goal)
    (hrest : ∀ e ∈ rest, e ∈ s.openList)
    (hcorr : ∀ j, j < gdist start goal → gridPath start goal j ∈ s.closed →
      gridPath start goal (j + 1) ∈ s.closed ∨ gridPath start goal (j + 1) = cur ∨
        (gdist start goal, gridPath start goal (j + 1)) ∈ rest) :
    ∃ s', astarStep gridG goal cur rest s = some s' ∧
      AstarGridInv start goal s' ∧
      s'.closed = insertSet cur s.closed ∧
      s'.openList = rest ++ ((stepNs gridG cur s.closed).map
        (fun n => (gdist start cur + 1 + gdist n goal, n))) := by
  have hinv0 : RelaxInv start goal
      { s with openList := rest, closed := insertSet cur s.closed } := by
    constructor
    · exact hinv.g_start
    · exact hinv.g_nodup
    · exact hinv.cf_nodup
    · exact hinv.g_lower
    · intro e he
      exact hinv.open_g e (hrest e he)
    · intro w hw
      rcases mem_insertSet.mp hw with rfl | hw2
      · exact hg
      · exact hinv.closed_g w hw2
    · exact hinv.cf_graph
    · exact hinv.cf_g
    · exact hinv.cf_start
    · exact hinv.cf_total
  obtain ⟨s', hfold, hop, hcl, hinv'⟩ :=
    foldRelax_grid
      (stepNs gridG cur s.closed)
      { s with openList := rest, closed := insertSet cur s.closed }
      hinv0 hg (by omega) (by exact hstart) (self_mem_insertSet cur s.closed)
      (fun m hm => by
        have h2 := mem_stepNs.mp hm
        exact ⟨h2.1, h2.2⟩)
  have hstep : astarStep gridG goal cur rest s = some s' := hfold
  have hclosed : s'.closed = insertSet cur s.closed := hcl
  have hopen : s'.openList = rest ++ ((stepNs gridG cur s.closed).map
        (fun n => (gdist start cur + 1 + gdist n goal, n))) := hop
  refine ⟨s', hstep, ?_, hclosed, hopen⟩
  constructor
  · exact hinv'
  · rw [hclosed]
    exact hstart
  · rw [hclosed]
    intro hcon
    rcases mem_insertSet.mp hcon with h1 | h1
    · exact hcg h1.symm
    · exact hgoal h1
  · intro j hj hjcl
    rw [hclosed] at hjcl
    by_cases hin : gridPath start goal j ∈ s.closed
    · rcases hcorr j hj hin with h1 | h1 | h1
      · left
        rw [hclosed]
        exact mem_insertSet.mpr (Or.inr h1)
      · left
        rw [hclosed, h1]
        exact self_mem_insertSet cur s.closed
      · right
        rw [hopen]
        exact List.mem_append_left _ h1
    · have hjc : gridPath start goal j = cur := by
        rcases mem_insertSet.mp hjcl with h1 | h1
        · exact h1
        · exact absurd h1 hin
      have hjval : j = gdist start cur := by
        have hds := gridPath_d_start start goal (le_of_lt hj)
        rw [hjc] at hds
        omega
      by_cases hnext : gridPath start goal (j + 1) ∈ insertSet cur s.closed
      · left
        rw [hclosed]
        exact hnext
      · right
        rw [hopen]
        refine List.mem_append_right _ ?_
        have hstep2 := gridPath_step start goal hj
        rw [hjc] at hstep2
        have hmemf : gridPath start goal (j + 1) ∈ stepNs gridG cur s.closed :=
          mem_stepNs.mpr ⟨hstep2, hnext⟩
        have hscore : gdist start cur + 1 + gdist (gridPath start goal (j + 1)) goal =
            gdist start goal := by
          have h2 := @gridPath_d_goal start goal (j + 1) hj
          omega
        rw [← hscore]
        exact List.mem_map.mpr ⟨_, hmemf, rfl⟩

theorem corridor_witness {start goal : Int × Int} {s : AState (Int × Int)}
    (hinv : AstarGridInv start goal s) :
    ∃ w, (gdist start goal, w) ∈ s.openList := by
  by_cases hk : gdist start goal = 0
  · exfalso
    have heq : start = goal := gdist_eq_zero_iff.mp hk
    exact hinv.goal_not_closed (heq ▸ hinv.start_closed)
  · have hP0 : gridPath start goal 0 ∈ s.closed := by
      rw [gridPath_zero]
      exact hinv.start_closed
    have hPk : gridPath start goal (gdist start goal) ∉ s.closed := by
      rw [gridPath_last]
      exact hinv.goal_not_closed
    have hex : ∃ j, gridPath start goal j ∉ s.closed := ⟨_, hPk⟩
    have hfind := Nat.find_spec hex
    have hle : Nat.find hex ≤ gdist start goal := Nat.find_le hPk
    have hpos : 0 < Nat.find hex := by
      rcases Nat.eq_zero_or_pos (Nat.find hex) with h0 | h0
      · exfalso
        rw [h0] at hfind
        exact hfind hP0
      · exact h0
    have hprev : gridPath start goal (Nat.find hex - 1) ∈ s.closed := by
      by_contra hc
      exact Nat.find_min hex (by omega) hc
    have htrans := hinv.corridor_entry (Nat.find hex - 1) (by omega) hprev
    rw [show Nat.find hex - 1 + 1 = Nat.find hex by omega] at htrans
    rcases htrans with h1 | h1
    · exact absurd h1 hfind
    · exact ⟨_, h1⟩

theorem pop_exact {start goal : Int × Int} {s : AState (Int × Int)}
    (hbound : gdist start goal + 2 ≤ usizeMAX)
    (hinv : AstarGridInv start goal s) :
    ∃ cur rest, popMin s.openList = some ((gdist start goal, cur), rest) ∧
      gdist start cur + gdist cur goal = gdist start goal ∧
      mlookup s.g_score cur = some (gdist start cur) := by
  obtain ⟨w, hw⟩ := corridor_witness hinv
  rcases hpop : popMin s.openList with _ | er
  · rw [popMin_eq_none_iff] at hpop
    rw [hpop] at hw
    exact absurd hw (List.not_mem_nil _)
  · obtain ⟨⟨sc, cur⟩, rest⟩ := er
    have hmin := popMin_min hpop _ hw
    obtain ⟨gw, hgw, hle⟩ := hinv.open_g _ (popMin_mem hpop)
    dsimp only at hmin hgw hle
    have hlow : gdist start cur ≤ gw := hinv.g_lower cur gw (mem_of_mlookup_eq_some hgw)
    have htri := gdist_triangle start cur goal
    have hsc : sc = gdist start goal := by omega
    have hcoreq : gdist start cur + gdist cur goal = gdist start goal := by omega
    have hgweq : gw = gdist start cur := by omega
    rw [hgweq] at hgw
    refine ⟨cur, rest, ?_, hcoreq, hgw⟩
    rw [hsc]

theorem chain_pred {start goal : Int × Int} {s : AState (Int × Int)}
    (hinv : RelaxInv start goal s) {v u : Int × Int} {gv : Nat}
    (hv : mlookup s.g_score v = some gv) (hvd : gv = gdist start v)
    (hu : mlookup s.came_from v = some u) :
    mlookup s.g_score u = some (gv - 1) ∧ gv - 1 = gdist start u ∧ 1 ≤ gv := by
  have hpair : (v, u) ∈ s.came_from := mem_of_mlookup_eq_some hu
  obtain ⟨gw, gu, hgw, hgu, hlt, _⟩ := hinv.cf_g v u hpair
  have hgwv : gw = gv := by
    rw [hv] at hgw
    injection hgw with h
    omega
  have hneigh : v ∈ gridNeigh4 u := hinv.cf_graph v u hpair
  have hlowu : gdist start u ≤ gu := hinv.g_lower u gu (mem_of_mlookup_eq_some hgu)
  have htri := gdist_triangle start u v
  have hduv : gdist u v = 1 := gdist_neighbor hneigh
  have hgueq : gu = gv - 1 ∧ gv - 1 = gdist start u ∧ 1 ≤ gv := by omega
  refine ⟨?_, hgueq.2.1, hgueq.2.2⟩
  rw [← hgueq.1]
  exact hgu

theorem chain_nodes {start goal : Int × Int} {s : AState (Int × Int)}
    (hinv : RelaxInv start goal s) :
    ∀ gv v, mlookup s.g_score v = some gv → gv = gdist start v → gv < usizeMAX →
      ∃ ks : List (Int × Int), ks.Nodup ∧ ks.length = gv ∧
        (∀ x ∈ ks, x ∈ mkeys s.came_from) ∧
        (∀ x ∈ ks, ∃ gx, mlookup s.g_score x = some gx ∧ gx ≤ gv) := by
  intro gv
  induction gv with
  | zero =>
    intro v _ _ _
    exact ⟨[], List.nodup_nil, rfl, by simp, by simp⟩
  | succ gv ih =>
    intro v hv hvd hvmax
    have hvs : v ≠ start := by
      intro h
      subst h
      rw [hinv.g_start] at hv
      injection hv with h2
      omega
    have hvin : v ∈ mkeys s.came_from :=
      hinv.cf_total v (gv + 1) (mem_of_mlookup_eq_some hv) hvs hvmax
    have hsome := (mlookup_isSome_iff s.came_from v).mpr hvin
    rcases hu : mlookup s.came_from v with _ | u
    · rw [hu] at hsome
      exact absurd hsome (by simp)
    · obtain ⟨hgu, hud, _⟩ := chain_pred hinv hv hvd hu
      obtain ⟨ks, hnd, hlen, hmem, hbnd⟩ := ih u (by simpa using hgu)
        (by omega) (by omega)
      refine ⟨v :: ks, ?_, by simp [hlen], ?_, ?_⟩
      · rw [List.nodup_cons]
        refine ⟨?_, hnd⟩
        intro hvks
        obtain ⟨gx, hgx, hgxle⟩ := hbnd v hvks
        rw [hv] at hgx
        injection hgx with h
        omega
      · intro x hx
        rcases List.mem_cons.mp hx with rfl | hx
        · exact hvin
        · exact hmem x hx
      · intro x hx
        rcases List.mem_cons.mp hx with rfl | hx
        · exact ⟨gv + 1, hv, le_refl _⟩
        · obtain ⟨gx, hgx, hgxle⟩ := hbnd x hx
          exact ⟨gx, hgx, by omega⟩

theorem reconstructAux_len {start goal : Int × Int} {s : AState (Int × Int)}
    (hinv : RelaxInv start goal s) :
    ∀ (fuel : Nat) (v : Int × Int) (gv : Nat),
      mlookup s.g_score v = some gv → gv = gdist start v →
      gv < usizeMAX → gv ≤ fuel →
      (reconstructAux s.came_from fuel v).length = gv := by
  intro fuel
  induction fuel with
  | zero =>
    intro v gv _ _ _ hle
    have h0 : gv = 0 := Nat.le_zero.mp hle
    subst h0
    rfl
  | succ fuel ih =>
    intro v gv hv hvd hvmax hle
    rcases Nat.eq_zero_or_pos gv with h0 | h0
    · subst h0
      have hvstart : v = start := (gdist_eq_zero_iff.mp hvd.symm).symm
      subst hvstart
      have hnone : mlookup s.came_from v = none :=
        (mlookup_eq_none_iff _ _).mpr hinv.cf_start
      simp [reconstructAux, hnone]
    · have hvs : v ≠ start := by
        intro h
        subst h
        rw [hinv.g_start] at hv
        injection hv with h2
        omega
      have hvin : v ∈ mkeys s.came_from :=
        hinv.cf_total v gv (mem_of_mlookup_eq_some hv) hvs hvmax
      have hsome := (mlookup_isSome_iff s.came_from v).mpr hvin
      rcases hu : mlookup s.came_from v with _ | u
      · rw [hu] at hsome
        exact absurd hsome (by simp)
      · obtain ⟨hgu, hud, _⟩ := chain_pred hinv hv hvd hu
        have hrec := ih u (gv - 1) hgu hud (by omega) (by omega)
        simp only [reconstructAux, hu]
        rw [List.length_cons, hrec]
        omega

theorem reconstruct_len {start goal : Int × Int} {s : AState (Int × Int)}
    (hinv : RelaxInv start goal s)
    (hg : mlookup s.g_score goal = some (gdist start goal))
    (hmax : gdist start goal < usizeMAX) :
    (reconstruct_path goal s.came_from).length = gdist start goal + 1 := by
  obtain ⟨ks, hnd, hlen, hmem, _⟩ :=
    chain_nodes hinv (gdist start goal) goal hg rfl hmax
  have hfuel : gdist start goal ≤ s.came_from.length := by
    have hsub : ks.Subperm (mkeys s.came_from) :=
      List.subperm_of_subset hnd (fun x hx => hmem x hx)
    have hlekeys := List.Subperm.length_le hsub
    have hkeyslen : (mkeys s.came_from).length = s.came_from.length :=
      List.length_map _ _
    omega
  unfold reconstruct_path
  rw [List.length_cons,
    reconstructAux_len hinv s.came_from.length goal (gdist start goal) hg rfl hmax hfuel]

theorem filter_append_no_mem {V : Type} [DecidableEq V]
    (l1 l2 : List (Nat × V)) (closed : List V) (h : ∀ e ∈ l2, e.2 ∉ closed) :
    ((l1 ++ l2).filter (fun e => decide (e.2 ∈ closed))).length =
      (l1.filter (fun e => decide (e.2 ∈ closed))).length := by
  rw [List.filter_append, List.length_append]
  have h0 : (l2.filter (fun e => decide (e.2 ∈ closed))).length = 0 := by
    rw [List.length_eq_zero, List.filter_eq_nil_iff]
    intro x hx
    simpa using h x hx
  omega

theorem astarLoop_grid_step {start goal : Int × Int} {s : AState (Int × Int)}
    (hbound : gdist start goal + 2 ≤ usizeMAX)
    (hinv : AstarGridInv start goal s) :
    (∃ p, astarLoop gridG goal 1 s = AOut.found p ∧
      p.length = gdist start goal + 1) ∨
    (∃ cur rest s', popMin s.openList = some ((gdist start goal, cur), rest) ∧
      gridG.distance cur goal ≠ 0 ∧
      astarStep gridG goal cur rest s = some s' ∧ AstarGridInv start goal s' ∧
      ((cur ∈ s.closed ∧ s'.closed = s.closed ∧
          staleCount s' + 1 = staleCount s) ∨
       (cur ∉ s.closed ∧
        ((corridor start goal).filter (fun v => decide (v ∉ s'.closed))).length <
          ((corridor start goal).filter
            (fun v => decide (v ∉ s.closed))).length))) := by
  obtain ⟨cur, rest, hpop, hcor, hgcur⟩ := pop_exact hbound hinv
  by_cases hcg : cur = goal
  · left
    refine ⟨reconstruct_path cur s.came_from, ?_, ?_⟩
    · rw [astarLoop]
      simp only [hpop]
      rw [if_pos (show gridG.distance cur goal = 0 by
        show gdist cur goal = 0
        rw [hcg]
        exact gdist_self goal)]
    · have hgg : mlookup s.g_score goal = some (gdist start goal) := by
        rw [← hcg]
        exact hgcur
      have hlen := reconstruct_len hinv.toRelaxInv hgg
        (by unfold usizeMAX at hbound ⊢; omega)
      rw [hcg]
      exact hlen
  · right
    have hd : gridG.distance cur goal ≠ 0 := by
      show gdist cur goal ≠ 0
      intro h
      exact hcg (gdist_eq_zero_iff.mp h)
    have hcorr2 : ∀ j, j < gdist start goal → gridPath start goal j ∈ s.closed →
        gridPath start goal (j + 1) ∈ s.closed ∨ gridPath start goal (j + 1) = cur ∨
          (gdist start goal, gridPath start goal (j + 1)) ∈ rest := by
      intro j hj hjc
      rcases hinv.corridor_entry j hj hjc with h1 | h1
      · exact Or.inl h1
      · have hmem := (popMin_perm hpop).subset h1
        rcases List.mem_cons.mp hmem with heq | hmem2
        · exact Or.inr (Or.inl (congrArg Prod.snd heq))
        · exact Or.inr (Or.inr hmem2)
    obtain ⟨s', hstep, hinv', hcl', hop'⟩ :=
      astarStep_grid hbound hinv.toRelaxInv hcor hgcur
        (mem_insertSet.mpr (Or.inr hinv.start_closed)) hinv.goal_not_closed hcg
        (fun e he => popMin_mem_rest hpop he) hcorr2
    refine ⟨cur, rest, s', hpop, hd, hstep, hinv', ?_⟩
    by_cases hclm : cur ∈ s.closed
    · left
      have hcleq : insertSet cur s.closed = s.closed := insertSet_eq_of_mem hclm
      have hscl : s'.closed = s.closed := by
        rw [hcl']
        exact hcleq
      refine ⟨hclm, hscl, ?_⟩
      have heq := stale_perm_count hpop hclm
      have hno : ∀ e ∈ (stepNs gridG cur s.closed).map
          (fun n => (gdist start cur + 1 + gdist n goal, n)), e.2 ∉ s.closed := by
        intro e he
        obtain ⟨n, hn, rfl⟩ := List.mem_map.mp he
        have hnn := (mem_stepNs.mp hn).2
        dsimp only
        intro hcon
        exact hnn (mem_insertSet.mpr (Or.inr hcon))
      unfold staleCount at heq ⊢
      rw [hop', hscl, filter_append_no_mem rest _ s.closed hno]
      omega
    · right
      refine ⟨hclm, ?_⟩
      rw [hcl', insertSet_eq_of_not_mem hclm]
      exact @filter_length_lt _
        (fun v => decide (v ∉ s.closed))
        (fun v => decide (v ∉ cur :: s.closed))
        (fun x hx => by
          simp only [decide_eq_true_eq] at hx ⊢
          intro hmem
          exact hx (List.mem_cons_of_mem cur hmem))
        (corridor start goal) cur (mem_corridor hcor) (by simpa using hclm)
        (by simp)

theorem astarLoop_grid {start goal : Int × Int}
    (hbound : gdist start goal + 2 ≤ usizeMAX) :
    ∀ (c st : Nat) (s : AState (Int × Int)),
      ((corridor start goal).filter (fun v => decide (v ∉ s.closed))).length ≤ c →
      staleCount s ≤ st →
      AstarGridInv start goal s →
      ∃ fuel p, astarLoop gridG goal fuel s = AOut.found p ∧
        p.length = gdist start goal + 1 := by
  intro c
  induction c with
  | zero =>
    intro st
    induction st with
    | zero =>
      intro s hc hst hinv
      rcases astarLoop_grid_step hbound hinv with ⟨p, hp, hlen⟩ |
        ⟨cur, rest, s', hpop, hd, hstep, hinv', hm⟩
      · exact ⟨1, p, hp, hlen⟩
      · exfalso
        rcases hm with ⟨hcl, hcleq, hstC⟩ | ⟨hcl, hlt⟩
        · omega
        · omega
    | succ st ihst =>
      intro s hc hst hinv
      rcases astarLoop_grid_step hbound hinv with ⟨p, hp, hlen⟩ |
        ⟨cur, rest, s', hpop, hd, hstep, hinv', hm⟩
      · exact ⟨1, p, hp, hlen⟩
      · rcases hm with ⟨hcl, hcleq, hstC⟩ | ⟨hcl, hlt⟩
        · obtain ⟨fuel, p, hfuel, hlen⟩ := ihst s' (by rw [hcleq]; exact hc)
            (by omega) hinv'
          refine ⟨fuel + 1, p, ?_, hlen⟩
          rw [astarLoop]
          simp only [hpop]
          rw [if_neg hd]
          simp only [hstep]
          exact hfuel
        · exfalso
          omega
  | succ c ihc =>
    intro st
    induction st with
    | zero =>
      intro s hc hst hinv
      rcases astarLoop_grid_step hbound hinv with ⟨p, hp, hlen⟩ |
        ⟨cur, rest, s', hpop, hd, hstep, hinv', hm⟩
      · exact ⟨1, p, hp, hlen⟩
      · rcases hm with ⟨hcl, hcleq, hstC⟩ | ⟨hcl, hlt⟩
        · exfalso
          omega
        · obtain ⟨fuel, p, hfuel, hlen⟩ := ihc (staleCount s') s'
            (by omega) (le_refl _) hinv'
          refine ⟨fuel + 1, p, ?_, hlen⟩
          rw [astarLoop]
          simp only [hpop]
          rw [if_neg hd]
          simp only [hstep]
          exact hfuel
    | succ st ihst =>
      intro s hc hst hinv
      rcases astarLoop_grid_step hbound hinv with ⟨p, hp, hlen⟩ |
        ⟨cur, rest, s', hpop, hd, hstep, hinv', hm⟩
      · exact ⟨1, p, hp, hlen⟩
      · rcases hm with ⟨hcl, hcleq, hstC⟩ | ⟨hcl, hlt⟩
        · obtain ⟨fuel, p, hfuel, hlen⟩ := ihst s' (by rw [hcleq]; exact hc)
            (by omega) hinv'
          refine ⟨fuel + 1, p, ?_, hlen⟩
          rw [astarLoop]
          simp only [hpop]
          rw [if_neg hd]
          simp only [hstep]
          exact hfuel
        · obtain ⟨fuel, p, hfuel, hlen⟩ := ihc (staleCount s') s'
            (by omega) (le_refl _) hinv'
          refine ⟨fuel + 1, p, ?_, hlen⟩
          rw [astarLoop]
          simp only [hpop]
          rw [if_neg hd]
          simp only [hstep]
          exact hfuel

/-- C1: on the obstacle-free integer grid — `neighbors` the four
axis-adjacent cells and `distance` the Manhattan distance — `astar_search`
(run on sufficient fuel) returns a found path whose vertex count is
exactly the Manhattan distance between `start` and `goal` plus one,
provided that distance fits the `usize` score arithmetic.  The first goal
pop is optimal under the admissible/consistent Manhattan heuristic. -/
theorem astar_search_grid_optimal (start goal : Int × Int)
    (hbound : gdist start goal + 2 ≤ usizeMAX) :
    ∃ fuel p, astar_search gridG fuel start goal = AOut.found p ∧
      p.length = gdist start goal + 1 := by
  by_cases hsg : start = goal
  · refine ⟨1, [start], ?_, ?_⟩
    · unfold astar_search astarInit
      rw [astarLoop]
      have hpop : popMin [(usizeMAX, start)] = some ((usizeMAX, start), []) := rfl
      simp only [hpop]
      rw [if_pos (show gridG.distance start goal = 0 by
        show gdist start goal = 0
        rw [hsg]
        exact gdist_self goal)]
      rfl
    · rw [hsg, gdist_self]
      rfl
  · have hk0 : gdist start goal ≠ 0 := fun h => hsg (gdist_eq_zero_iff.mp h)
    have hpop0 : popMin ((astarInit start).openList) =
        some ((usizeMAX, start), ([] : List (Nat × (Int × Int)))) := rfl
    have hinv0 : RelaxInv start goal (astarInit start) := by
      constructor
      · exact mlookup_minsert_self [] start 0
      · simp [astarInit, minsert, mkeys]
      · simp [astarInit, mkeys]
      · intro w gw hw
        simp only [astarInit, minsert] at hw
        rcases List.mem_singleton.mp hw with heq
        obtain ⟨h1, h2⟩ := Prod.mk.injEq .. ▸ heq
        subst h1
        subst h2
        rw [gdist_self]
      · intro e he
        rcases List.mem_singleton.mp he with rfl
        refine ⟨0, mlookup_minsert_self [] start 0, ?_⟩
        dsimp only
        have htri := gdist_triangle start start goal
        rw [gdist_self] at htri
        unfold usizeMAX at hbound ⊢
        omega
      · intro w hw
        exact absurd hw (List.not_mem_nil w)
      · intro w u hw
        exact absurd hw (List.not_mem_nil (w, u))
      · intro w u hw
        exact absurd hw (List.not_mem_nil (w, u))
      · simp [astarInit, mkeys]
      · intro w gw hw hws _
        simp only [astarInit, minsert] at hw
        rcases List.mem_singleton.mp hw with heq
        obtain ⟨h1, _⟩ := Prod.mk.injEq .. ▸ heq
        exact absurd h1 hws
    obtain ⟨s1, hstep1, hinv1, hcl1, hop1⟩ :=
      astarStep_grid hbound hinv0 (by rw [gdist_self]; omega)
        (by rw [gdist_self]; exact mlookup_minsert_self [] start 0)
        (self_mem_insertSet start [])
        (List.not_mem_nil goal) hsg
        (fun e he => absurd he (List.not_mem_nil e))
        (fun j hj hjc => absurd hjc (List.not_mem_nil _))
    obtain ⟨fuel, p, hloop, hlen⟩ :=
      astarLoop_grid hbound _ _ s1 (le_refl _) (le_refl _) hinv1
    refine ⟨fuel + 1, p, ?_, hlen⟩
    unfold astar_search
    rw [astarLoop]
    simp only [hpop0]
    rw [if_neg (show ¬gridG.distance start goal = 0 from hk0)]
    simp only [hstep1]
    exact hloop

/-- Witness for the C1 theorem: at `start = (0, 0)`, `goal = (2, 3)` the
side condition holds, a path is found and it has `5 + 1` vertices. -/
theorem astar_search_grid_optimal_witness :
    gdist (0, 0) (2, 3) + 2 ≤ usizeMAX ∧
      ∃ fuel p, astar_search gridG fuel (0, 0) (2, 3) = AOut.found p ∧
        p.length = gdist (0, 0) (2, 3) + 1 :=
  ⟨by decide, astar_search_grid_optimal (0, 0) (2, 3) (by decide)⟩

end AstarGrid

end CCU
